import Mathlib

/-!
# Verification of the recurrent-layer core of `common/parametric_functions.py`

Shallow embedding of the layers `simple_rnn`, `lstm_cell`, `lstm`, `highway`
and the masked-blend primitive `where` over exact rational scalars.

Tensors are nested lists: rank 1 = `Vec`, rank 2 = `Mat` (batch, features),
rank 3 = `Ten3` (batch, time, features).  The external tensor-library
primitives that the core consumes (constant fill, split / stack along the
time axis, concatenate along the feature axis, slicing, elementwise
arithmetic with trailing-singleton broadcasting) are modelled as Lean
functions on these lists; the elementwise nonlinearities `tanh` / `sigmoid`
/ `relu` and the parametric affine (dense) operation are external
collaborators of the core and are passed in as function parameters.
Floating-point rounding is outside the model: scalars are exact, so
algebraic identities of the computation graph are proved exactly.
-/

set_option autoImplicit false

/-- Scalars of the tensor engine.  The core performs only commutative-ring
operations on them (`+`, `-`, `*`, the constants 0 and 1 — no division
appears anywhere in these layers), so exact integers model them: every
identity proved here is an identity of ring expressions, valid verbatim
over the engine's real scalars, while keeping evaluation at concrete
inputs decidable. -/
abbrev Scalar := ℤ

/-- A rank-1 tensor. -/
abbrev Vec := List Scalar

/-- A rank-2 tensor `(batch, features)`: a list of rows. -/
abbrev Mat := List Vec

/-- A rank-3 tensor `(batch, time, features)`. -/
abbrev Ten3 := List Mat

/-- A tensor of rank 1, 2 or 3, as far as the `where` primitive (which
inspects `x.ndim`) needs to distinguish ranks. -/
inductive NT where
  | r1 (d : Vec)
  | r2 (d : Mat)
  | r3 (d : Ten3)
deriving DecidableEq

/-- `ndim` of a tensor (the rank recorded by the constructor). -/
def NT.ndim : NT → Nat
  | .r1 _ => 1
  | .r2 _ => 2
  | .r3 _ => 3

/-- Elementwise product of two rows with broadcasting of a singleton
trailing dimension, as the tensor engine's `*` behaves on the row shapes
used here (a `(batch, 1)` condition against `(batch, features)` data, or
two rows of equal width). -/
def mulRow (a b : Vec) : Vec :=
  if a.length == 1 then b.map (fun v => a.headD 0 * v)
  else if b.length == 1 then a.map (fun v => v * b.headD 0)
  else List.zipWith (· * ·) a b

/-- Elementwise sum of two rows (used only at matching widths here). -/
def addRow (a b : Vec) : Vec := List.zipWith (· + ·) a b

/-- Elementwise difference of two rows (used only at matching widths). -/
def subRow (a b : Vec) : Vec := List.zipWith (· - ·) a b

/-- Rank-2 elementwise `*` (with the trailing-singleton broadcast). -/
def mul2 (a b : Mat) : Mat := List.zipWith mulRow a b

/-- Rank-2 elementwise `+`. -/
def add2 (a b : Mat) : Mat := List.zipWith addRow a b

/-- Rank-2 elementwise `-`. -/
def sub2 (a b : Mat) : Mat := List.zipWith subRow a b

/-- `F.constant(v, shape=m.shape)` for a rank-2 tensor: same shape, all
entries `v`. -/
def fill2 (v : Scalar) (m : Mat) : Mat := m.map (fun r => r.map (fun _ => v))

/-- Rank-1 constant fill. -/
def fill1 (v : Scalar) (d : Vec) : Vec := d.map (fun _ => v)

/-- Rank-3 constant fill. -/
def fill3 (v : Scalar) (t : Ten3) : Ten3 := t.map (fun m => fill2 v m)

/-- `F.constant(v, shape=x.shape)`: a constant tensor of the shape of `x`. -/
def ntFill (v : Scalar) : NT → NT
  | .r1 d => .r1 (fill1 v d)
  | .r2 d => .r2 (fill2 v d)
  | .r3 d => .r3 (fill3 v d)

/-- Tensor product with broadcasting, restricted to the rank combinations
that occur in this code base (rank-3 operands never reach `where`; the
final catch-all case is therefore never exercised). -/
def ntMul : NT → NT → NT
  | .r1 a, .r1 b => .r1 (mulRow a b)
  | .r2 a, .r2 b => .r2 (mul2 a b)
  | .r2 a, .r1 b => .r2 (a.map (fun r => mulRow r b))
  | .r1 a, .r2 b => .r2 (b.map (fun r => mulRow a r))
  | x, _ => x

/-- Tensor sum (matching ranks; other combinations do not occur). -/
def ntAdd : NT → NT → NT
  | .r1 a, .r1 b => .r1 (addRow a b)
  | .r2 a, .r2 b => .r2 (add2 a b)
  | .r3 a, .r3 b => .r3 (List.zipWith add2 a b)
  | x, _ => x

/-- Tensor difference (matching ranks; other combinations do not occur). -/
def ntSub : NT → NT → NT
  | .r1 a, .r1 b => .r1 (subRow a b)
  | .r2 a, .r2 b => .r2 (sub2 a b)
  | .r3 a, .r3 b => .r3 (List.zipWith sub2 a b)
  | x, _ => x

/-- `F.reshape(c, shape=list(c.shape)+[1])`: append a trailing singleton
dimension.  Rank-3 conditions never occur in this code base, so the rank
cap on the last case is never exercised. -/
def ntExpandLast : NT → NT
  | .r1 d => .r2 (d.map (fun v => [v]))
  | .r2 d => .r3 (d.map (fun r => r.map (fun v => [v])))
  | .r3 d => .r3 d

/-- `where(condition, x, y)` from `common/parametric_functions.py`:
returns `x` where the condition is 1 and `y` where it is 0, computed as
`condition * x + (1 - condition) * y`; the condition gains a trailing
singleton dimension when `x` is rank 1. -/
def whereFn (condition x y : NT) : NT :=
  let true_condition :=
    if x.ndim == 1 then ntExpandLast condition else condition
  let false_condition := ntSub (ntFill 1 true_condition) true_condition
  ntAdd (ntMul true_condition x) (ntMul false_condition y)

/-- The rank-2 instance of `whereFn`, used by the recurrent layers (their
states and per-timestep condition slices are rank-2 tensors). -/
def whereR2 (condition x y : Mat) : Mat :=
  add2 (mul2 condition x) (mul2 (sub2 (fill2 1 condition) condition) y)

/-- On rank-2 arguments, `whereFn` is exactly `whereR2`. -/
theorem whereFn_r2 (c x y : Mat) :
    whereFn (.r2 c) (.r2 x) (.r2 y) = .r2 (whereR2 c x y) := rfl

/-- `F.constant(v, shape=(b, u))`. -/
def constMat (b u : Nat) (v : Scalar) : Mat :=
  List.replicate b (List.replicate u v)

/-- `F.constant(v, shape=(b, l, w))`. -/
def constT3 (b l w : Nat) (v : Scalar) : Ten3 :=
  List.replicate b (List.replicate l (List.replicate w v))

/-- `F.split(x, axis=1)`: the list of per-timestep `(batch, features)`
slices of a `(batch, time, features)` tensor (the time extent is read off
the first example, as the engine reads it off the static shape). -/
def splitAxis1 (x : Ten3) : List Mat :=
  (List.range (x.headD []).length).map (fun t => x.map (fun ex => ex.getD t []))

/-- `F.stack(*ms, axis=1)`: reassemble per-timestep `(batch, features)`
tensors into one `(batch, time, features)` tensor. -/
def stackAxis1 (ms : List Mat) : Ten3 :=
  (List.range (ms.headD []).length).map (fun bi => ms.map (fun m => m.getD bi []))

/-- `F.concatenate(x, h, axis=1)`: rowwise concatenation along features. -/
def concatM (x h : Mat) : Mat := List.zipWith (· ++ ·) x h

/-- `m[:, i:j]`: rowwise Python slice (clamping exactly as Python does). -/
def sliceCols (m : Mat) (i j : Nat) : Mat :=
  m.map (fun r => (r.drop i).take (j - i))

/-- Elementwise application of a scalar function (`F.tanh` etc.). -/
def mapMat (f : Scalar → Scalar) (m : Mat) : Mat := m.map (fun r => r.map f)

/-- The external parametric affine operation `PF.affine` of one fixed
parameter scope and output width: its arguments at a call site are the
`fix_parameters` flag and the input tensor.  The weight and bias live
inside the function value, as they live inside the engine's parameter
scope. -/
abbrev AffineFn := Bool → Mat → Mat

/-- A concrete dense layer `x * W + bias` (weights given as the list of
`units` columns, each of the input width), modelling the external
`PF.affine` contract for use at concrete inputs.  The flag only marks the
parameters non-trainable, which does not change the forward value. -/
def affineW (w : Mat) (bias : Vec) : AffineFn := fun _ x =>
  x.map (fun row =>
    List.zipWith (fun col bj => (List.zipWith (· * ·) row col).sum + bj) w bias)

/-- Well-formedness of a rank-2 tensor: `r` rows, each of width `c`. -/
def WfMat (m : Mat) (r c : Nat) : Prop :=
  m.length = r ∧ ∀ row ∈ m, row.length = c

/-- Well-formedness of a rank-3 tensor of shape `(a, b, c)`. -/
def WfT3 (x : Ten3) (a b c : Nat) : Prop :=
  x.length = a ∧ ∀ ex ∈ x, ex.length = b ∧ ∀ row ∈ ex, row.length = c

/-- The shape contract of an affine layer of output width `u`: the batch
(row) count is preserved and every output row has width `u`. -/
def AffineWf (af : AffineFn) (u : Nat) : Prop :=
  ∀ fl m, (af fl m).length = m.length ∧ ∀ r ∈ af fl m, r.length = u

/-! ## The layers -/

/-- The unroll loop of `simple_rnn` (lines 43-46): starting from hidden
state `h`, for each `(x, cond)` pair of per-timestep input and mask slices
compute the candidate `h_t = tanh(affine(concat(x, h)))`, blend it with
the previous state through `where`, and append the blended state to the
output history.  Returns the history `hs` (which is also the trajectory of
the loop's hidden-state variable). -/
def rnn_scan (tf : Scalar → Scalar) (af : AffineFn) (fp : Bool) :
    Mat → List (Mat × Mat) → List Mat
  | _, [] => []
  | h, (x, cond) :: rest =>
      let h_t := mapMat tf (af fp (concatM x h))
      let h2 := whereR2 cond h_t h
      h2 :: rnn_scan tf af fp h2 rest

/-- `simple_rnn` from `common/parametric_functions.py`.  `tf` models
`F.tanh` and `af` models `PF.affine` under this layer's parameter scope
with `n_outmaps = units`. -/
def simple_rnn (tf : Scalar → Scalar) (af : AffineFn) (inputs : Ten3)
    (units : Nat) (mask : Option Ten3)
    (return_sequences : Bool) (fix_parameters : Bool) : NT :=
  let batch_size := inputs.length
  let length := (inputs.headD []).length
  let h0 := constMat batch_size units 0
  let mask2 := match mask with
    | none => constT3 batch_size length 1 1
    | some m => m
  let hs := rnn_scan tf af fix_parameters h0
      ((splitAxis1 inputs).zip (splitAxis1 mask2))
  if return_sequences then .r3 (stackAxis1 hs) else .r2 (hs.getLastD [])

/-- `lstm_cell` from `common/parametric_functions.py` (lines 54-65).
`tf` models `F.tanh`, `sf` models `F.sigmoid`, `af` models `PF.affine`
under the enclosing scope with `n_outmaps = 4*units`; the source calls
`PF.affine` without a `fix_parameters` argument, so the flag it receives
is the default `False`.  (`forgate_gate` is the variable name used by the
source.) -/
def lstm_cell (tf sf : Scalar → Scalar) (af : AffineFn) (x c h : Mat) :
    Mat × Mat :=
  let units := (c.headD []).length
  let _hidden := af false (concatM x h)
  let a            := mapMat tf (sliceCols _hidden (units*0) (units*1))
  let input_gate   := mapMat sf (sliceCols _hidden (units*1) (units*2))
  let forgate_gate := mapMat sf (sliceCols _hidden (units*2) (units*3))
  let output_gate  := mapMat sf (sliceCols _hidden (units*3) (units*4))
  let cell := add2 (mul2 input_gate a) (mul2 forgate_gate c)
  let hidden := mul2 output_gate (mapMat tf cell)
  (cell, hidden)

/-- The per-iteration trace of the `lstm` unroll loop (lines 112-116):
the value of the pair of loop variables `(cell, hidden)` after each
timestep. -/
def lstm_trace (tf sf : Scalar → Scalar) (af : AffineFn) :
    Mat → Mat → List (Mat × Mat) → List (Mat × Mat)
  | _, _, [] => []
  | c, h, (x, cond) :: rest =>
      let ch := lstm_cell tf sf af x c h
      let c2 := whereR2 cond ch.1 c
      let h2 := whereR2 cond ch.2 h
      (c2, h2) :: lstm_trace tf sf af c2 h2 rest

/-- The `lstm` unroll loop (lines 112-116): returns the appended history
`hs` together with the final values of the `cell` and `hidden` loop
variables. -/
def lstm_scan (tf sf : Scalar → Scalar) (af : AffineFn) :
    Mat → Mat → List (Mat × Mat) → List Mat × Mat × Mat
  | c, h, [] => ([], c, h)
  | c, h, (x, cond) :: rest =>
      let ch := lstm_cell tf sf af x c h
      let c2 := whereR2 cond ch.1 c
      let h2 := whereR2 cond ch.2 h
      let r := lstm_scan tf sf af c2 h2 rest
      (h2 :: r.1, r.2)

/-- The value returned by `lstm`: the primary output alone, or (with
`return_state`) together with the final cell and hidden state. -/
inductive LSTMOut where
  | single (ret : NT)
  | withState (ret : NT) (cell hidden : Mat)
deriving DecidableEq

/-- `numpy`-style shape of a rank-2 tensor: (rows, width of a row). -/
def matShape (m : Mat) : Nat × Nat := (m.length, (m.headD []).length)

/-- The part of `lstm` after initial-state validation: default the mask,
run the unroll loop from `(c0, h0)`, and assemble the return value
(lines 105-126). -/
def lstm_body (tf sf : Scalar → Scalar) (af : AffineFn) (inputs : Ten3)
    (mask : Option Ten3) (c0 h0 : Mat)
    (return_sequences return_state : Bool) : LSTMOut :=
  let batch_size := inputs.length
  let length := (inputs.headD []).length
  let mask2 := match mask with
    | none => constT3 batch_size length 1 1
    | some m => m
  let r := lstm_scan tf sf af c0 h0
      ((splitAxis1 inputs).zip (splitAxis1 mask2))
  let ret := if return_sequences then NT.r3 (stackAxis1 r.1)
             else NT.r2 (r.1.getLastD [])
  if return_state then .withState ret r.2.1 r.2.2 else .single ret

/-- `lstm` from `common/parametric_functions.py` (lines 67-126).  A
provided `initial_state` is validated eagerly — arity 2, identical shapes,
batch dimension matching the inputs, feature dimension equal to `units` —
before the unroll loop runs; a failed `assert` is an error value.  The
`fix_parameters` argument is accepted but (as in the source) never used. -/
def lstm (tf sf : Scalar → Scalar) (af : AffineFn) (inputs : Ten3)
    (units : Nat) (mask : Option Ten3) (initial_state : Option (List Mat))
    (return_sequences return_state fix_parameters : Bool) :
    Except String LSTMOut :=
  let batch_size := inputs.length
  match initial_state with
  | none =>
      .ok (lstm_body tf sf af inputs mask
        (constMat batch_size units 0) (constMat batch_size units 0)
        return_sequences return_state)
  | some st =>
      if st.length = 2 then
        let c0 := st.getD 0 []
        let h0 := st.getD 1 []
        if matShape c0 = matShape h0 then
          if c0.length = batch_size then
            if (c0.headD []).length = units then
              .ok (lstm_body tf sf af inputs mask c0 h0
                return_sequences return_state)
            else .error "units size of initial_state is different from that of units of args."
          else .error "batch size of initial_state is different from that of inputs."
        else .error "shapes of initial_state must be same."
      else .error "initial_state must have only two states."

/-- `1 - m`: the engine's scalar-minus-tensor broadcast (line 145). -/
def oneMinus (m : Mat) : Mat := m.map (fun r => r.map (fun v => 1 - v))

/-- `highway` from `common/parametric_functions.py` (lines 129-146).
`rf` models `F.relu`, `sf` models `F.sigmoid`; `af_plain` and
`af_transform` model `PF.affine` under the two independent parameter
scopes `plain` and `transform`, each with `n_outmaps` equal to the input
width. -/
def highway (rf sf : Scalar → Scalar) (af_plain af_transform : AffineFn)
    (x : Mat) (fix_parameters : Bool) : Mat :=
  let out_plain := mapMat rf (af_plain fix_parameters x)
  let out_transform := mapMat sf (af_transform fix_parameters x)
  add2 (mul2 out_plain out_transform) (mul2 x (oneMinus out_transform))

/-! ## List-level helper lemmas -/

theorem getD_map_of_lt {α β : Type} (f : α → β) (l : List α) (i : Nat)
    (d : β) (d2 : α) (h : i < l.length) :
    (l.map f).getD i d = f (l.getD i d2) := by
  rw [List.getD_eq_getElem _ _ (by simpa using h), List.getD_eq_getElem _ _ h,
    List.getElem_map]

theorem getD_zipWith_of_lt {α β γ : Type} (f : α → β → γ) (a : List α)
    (b : List β) (i : Nat) (d : γ) (da : α) (db : β)
    (h1 : i < a.length) (h2 : i < b.length) :
    (List.zipWith f a b).getD i d = f (a.getD i da) (b.getD i db) := by
  have h : i < (List.zipWith f a b).length := by
    rw [List.length_zipWith]; exact lt_min h1 h2
  rw [List.getD_eq_getElem _ _ h, List.getD_eq_getElem _ _ h1,
    List.getD_eq_getElem _ _ h2, List.getElem_zipWith]

theorem getD_replicate_of_lt {α : Type} (n i : Nat) (a d : α) (h : i < n) :
    (List.replicate n a).getD i d = a := by
  rw [List.getD_eq_getElem _ _ (by simpa using h)]
  exact List.getElem_replicate a _

/-- Widths of the rows of a well-formed matrix, through `getD`. -/
theorem wf_getD_length (m : Mat) (B U i : Nat) (h : WfMat m B U)
    (hi : i < B) : (m.getD i []).length = U := by
  obtain ⟨hlen, hrow⟩ := h
  have hi2 : i < m.length := by omega
  rw [List.getD_eq_getElem _ _ hi2]
  exact hrow _ (List.getElem_mem hi2)

theorem wfmat_pairwise_len (x y : Mat) (B U : Nat)
    (hx : WfMat x B U) (hy : WfMat y B U) :
    List.Forall₂ (fun (a b : Vec) => a.length = b.length) x y := by
  obtain ⟨hx1, hx2⟩ := hx
  obtain ⟨hy1, hy2⟩ := hy
  rw [List.forall₂_iff_get]
  refine ⟨by omega, fun i h1 h2 => ?_⟩
  rw [List.get_eq_getElem, List.get_eq_getElem,
    hx2 _ (List.getElem_mem h1), hy2 _ (List.getElem_mem h2)]

/-! ## Row-level arithmetic lemmas -/

theorem mulRow_single (c : Scalar) (b : Vec) :
    mulRow [c] b = b.map (fun v => c * v) := by
  simp [mulRow]

theorem subRow_single (a b : Scalar) : subRow [a] [b] = [a - b] := rfl

/-- `0 ⊙ x + 1 ⊙ y = y` rowwise, at matching widths. -/
theorem addRow_zero_one (x y : Vec) (h : x.length = y.length) :
    addRow (x.map (fun v => 0 * v)) (y.map (fun v => 1 * v)) = y := by
  induction x generalizing y with
  | nil =>
    cases y with
    | nil => rfl
    | cons b ys => simp at h
  | cons a xs ih =>
    cases y with
    | nil => simp at h
    | cons b ys =>
      simp only [List.map_cons, addRow, List.zipWith_cons_cons]
      rw [show (0 : Scalar) * a + 1 * b = b by ring]
      exact congrArg (b :: ·) (ih ys (by simpa using h))

/-- `1 ⊙ x + 0 ⊙ y = x` rowwise, at matching widths. -/
theorem addRow_one_zero (x y : Vec) (h : x.length = y.length) :
    addRow (x.map (fun v => 1 * v)) (y.map (fun v => 0 * v)) = x := by
  induction x generalizing y with
  | nil =>
    cases y with
    | nil => rfl
    | cons b ys => simp at h
  | cons a xs ih =>
    cases y with
    | nil => simp at h
    | cons b ys =>
      simp only [List.map_cons, addRow, List.zipWith_cons_cons]
      rw [show (1 : Scalar) * a + 0 * b = a by ring]
      exact congrArg (a :: ·) (ih ys (by simpa using h))

/-! ## Selection lemmas for the `where` blend -/

/-- A single example row of the blend, when its mask value is 0: the row
keeps its previous state `y` exactly. -/
theorem whereR2_getD_zero (cond x y : Mat) (b : Nat)
    (hbc : b < cond.length) (hbx : b < x.length) (hby : b < y.length)
    (hc : cond.getD b [] = [0])
    (hw : (x.getD b []).length = (y.getD b []).length) :
    (whereR2 cond x y).getD b [] = y.getD b [] := by
  unfold whereR2 add2 mul2 sub2 fill2
  rw [getD_zipWith_of_lt addRow _ _ b [] [] []
      (by rw [List.length_zipWith]; exact lt_min hbc hbx)
      (by rw [List.length_zipWith, List.length_zipWith, List.length_map]
          exact lt_min (lt_min hbc hbc) hby)]
  rw [getD_zipWith_of_lt mulRow _ _ b [] [] [] hbc hbx,
      getD_zipWith_of_lt mulRow _ _ b [] [] []
        (by rw [List.length_zipWith, List.length_map]; exact lt_min hbc hbc) hby,
      getD_zipWith_of_lt subRow _ _ b [] [] [] (by simpa using hbc) hbc,
      getD_map_of_lt _ _ b [] [] hbc, hc]
  simp only [List.map_cons, List.map_nil, subRow_single, mulRow_single,
    show (1 : Scalar) - 0 = 1 from by norm_num]
  exact addRow_zero_one _ _ (by simpa using hw)

/-- One-step unfolding of the rank-2 blend. -/
theorem whereR2_cons (cr xr yr : Vec) (c x y : Mat) :
    whereR2 (cr :: c) (xr :: x) (yr :: y) =
      addRow (mulRow cr xr)
        (mulRow (subRow (cr.map (fun _ => 1)) cr) yr) :: whereR2 c x y := rfl

/-- When every mask row is `[1]`, the blend returns the candidate `x`. -/
theorem whereR2_all_ones : ∀ (cond x y : Mat),
    cond.length = x.length → x.length = y.length →
    List.Forall₂ (fun (a b : Vec) => a.length = b.length) x y →
    (∀ r ∈ cond, r = [1]) → whereR2 cond x y = x
  | [], [], [], _, _, _, _ => rfl
  | [], _ :: _, _, h1, _, _, _ => by simp at h1
  | _ :: _, [], _, h1, _, _, _ => by simp at h1
  | _ :: _, _ :: _, [], _, h2, _, _ => by simp at h2
  | cr :: cond, xr :: xs, yr :: ys, h1, h2, hw, hc => by
    have hcr : cr = [1] := hc cr (by simp)
    have hwh : xr.length = yr.length := by cases hw with | cons h _ => exact h
    have hwt : List.Forall₂ (fun (a b : Vec) => a.length = b.length) xs ys := by
      cases hw with | cons _ h => exact h
    rw [whereR2_cons, hcr]
    refine congrArg₂ (· :: ·) ?_ ?_
    · simp only [List.map_cons, List.map_nil, subRow_single, mulRow_single,
        show (1 : Scalar) - 1 = 0 from by norm_num]
      exact addRow_one_zero xr yr hwh
    · exact whereR2_all_ones cond xs ys (by simpa using h1) (by simpa using h2)
        hwt (fun r hr => hc r (by simp [hr]))

/-- When every mask row is `[0]`, the blend returns the previous `y`. -/
theorem whereR2_all_zeros : ∀ (cond x y : Mat),
    cond.length = x.length → x.length = y.length →
    List.Forall₂ (fun (a b : Vec) => a.length = b.length) x y →
    (∀ r ∈ cond, r = [0]) → whereR2 cond x y = y
  | [], [], [], _, _, _, _ => rfl
  | [], _ :: _, _, h1, _, _, _ => by simp at h1
  | _ :: _, [], _, h1, _, _, _ => by simp at h1
  | _ :: _, _ :: _, [], _, h2, _, _ => by simp at h2
  | cr :: cond, xr :: xs, yr :: ys, h1, h2, hw, hc => by
    have hcr : cr = [0] := hc cr (by simp)
    have hwh : xr.length = yr.length := by cases hw with | cons h _ => exact h
    have hwt : List.Forall₂ (fun (a b : Vec) => a.length = b.length) xs ys := by
      cases hw with | cons _ h => exact h
    rw [whereR2_cons, hcr]
    refine congrArg₂ (· :: ·) ?_ ?_
    · simp only [List.map_cons, List.map_nil, subRow_single, mulRow_single,
        show (1 : Scalar) - 0 = 1 from by norm_num]
      exact addRow_zero_one xr yr hwh
    · exact whereR2_all_zeros cond xs ys (by simpa using h1) (by simpa using h2)
        hwt (fun r hr => hc r (by simp [hr]))

/-! ## Shape lemmas for the tensor primitives -/

theorem wfmat_of_getD (m : Mat) (B U : Nat) (hl : m.length = B)
    (h : ∀ i, i < B → (m.getD i []).length = U) : WfMat m B U := by
  refine ⟨hl, fun row hrow => ?_⟩
  rcases List.mem_iff_getElem.mp hrow with ⟨i, hi, rfl⟩
  have hi2 : i < B := by omega
  have := h i hi2
  rwa [List.getD_eq_getElem _ _ hi] at this

theorem wfT3_headD_length (x : Ten3) (B L E : Nat) (hx : WfT3 x B L E)
    (hB : 0 < B) : (x.headD []).length = L := by
  obtain ⟨hlen, hex⟩ := hx
  cases x with
  | nil => simp at hlen; omega
  | cons ex t => exact (hex ex (by simp)).1

theorem mulRow_length_left1 (a b : Vec) (h : a.length = 1) :
    (mulRow a b).length = b.length := by
  simp [mulRow, h]

theorem mulRow_length (a b : Vec) (n : Nat) (ha : a.length = n)
    (hb : b.length = n) : (mulRow a b).length = n := by
  rcases eq_or_ne a.length 1 with h1 | h1
  · rw [mulRow_length_left1 a b h1, hb]
  · rcases eq_or_ne b.length 1 with h2 | h2
    · exact absurd (by omega : a.length = 1) h1
    · have hn : n ≠ 1 := fun h => h1 (by omega)
      simp [mulRow, hn, ha, hb, List.length_zipWith]

theorem mul2_bcast_wf (c x : Mat) (B U : Nat) (hc : WfMat c B 1)
    (hx : WfMat x B U) : WfMat (mul2 c x) B U := by
  refine wfmat_of_getD _ _ _ (by
    simp only [mul2, List.length_zipWith, hc.1, hx.1, min_self]) ?_
  intro i hi
  have hci : i < c.length := by rw [hc.1]; exact hi
  have hxi : i < x.length := by rw [hx.1]; exact hi
  rw [mul2, getD_zipWith_of_lt mulRow _ _ i [] [] [] hci hxi]
  rw [mulRow_length_left1 _ _ (wf_getD_length c B 1 i hc hi)]
  exact wf_getD_length x B U i hx hi

theorem mul2_same_wf (a b : Mat) (B U : Nat) (ha : WfMat a B U)
    (hb : WfMat b B U) : WfMat (mul2 a b) B U := by
  refine wfmat_of_getD _ _ _ (by
    simp only [mul2, List.length_zipWith, ha.1, hb.1, min_self]) ?_
  intro i hi
  rw [mul2, getD_zipWith_of_lt mulRow _ _ i [] [] [] (ha.1 ▸ hi) (hb.1 ▸ hi)]
  exact mulRow_length _ _ U (wf_getD_length a B U i ha hi)
    (wf_getD_length b B U i hb hi)

theorem add2_same_wf (a b : Mat) (B U : Nat) (ha : WfMat a B U)
    (hb : WfMat b B U) : WfMat (add2 a b) B U := by
  refine wfmat_of_getD _ _ _ (by
    simp only [add2, List.length_zipWith, ha.1, hb.1, min_self]) ?_
  intro i hi
  rw [add2, getD_zipWith_of_lt addRow _ _ i [] [] [] (ha.1 ▸ hi) (hb.1 ▸ hi)]
  simp only [addRow, List.length_zipWith, wf_getD_length a B U i ha hi,
    wf_getD_length b B U i hb hi, min_self]

theorem sub2_same_wf (a b : Mat) (B U : Nat) (ha : WfMat a B U)
    (hb : WfMat b B U) : WfMat (sub2 a b) B U := by
  refine wfmat_of_getD _ _ _ (by
    simp only [sub2, List.length_zipWith, ha.1, hb.1, min_self]) ?_
  intro i hi
  rw [sub2, getD_zipWith_of_lt subRow _ _ i [] [] [] (ha.1 ▸ hi) (hb.1 ▸ hi)]
  simp only [subRow, List.length_zipWith, wf_getD_length a B U i ha hi,
    wf_getD_length b B U i hb hi, min_self]

theorem fill2_wf (v : Scalar) (m : Mat) (B U : Nat) (h : WfMat m B U) :
    WfMat (fill2 v m) B U := by
  refine ⟨by simp [fill2, h.1], fun row hrow => ?_⟩
  rcases List.mem_map.mp hrow with ⟨r, hr, rfl⟩
  simp [h.2 r hr]

/-- The blend preserves the `(batch, units)` shape of the states under a
`(batch, 1)` condition. -/
theorem whereR2_wf (cond x y : Mat) (B U : Nat) (hc : WfMat cond B 1)
    (hx : WfMat x B U) (hy : WfMat y B U) : WfMat (whereR2 cond x y) B U :=
  add2_same_wf _ _ _ _ (mul2_bcast_wf _ _ _ _ hc hx)
    (mul2_bcast_wf _ _ _ _ (sub2_same_wf _ _ _ _ (fill2_wf 1 _ _ _ hc) hc) hy)

theorem mapMat_wf (f : Scalar → Scalar) (m : Mat) (B U : Nat)
    (h : WfMat m B U) : WfMat (mapMat f m) B U := by
  refine ⟨by simp [mapMat, h.1], fun row hrow => ?_⟩
  rcases List.mem_map.mp hrow with ⟨r, hr, rfl⟩
  simp [h.2 r hr]

theorem concatM_length (x h : Mat) :
    (concatM x h).length = min x.length h.length := List.length_zipWith _ _ _

theorem sliceCols_wf (m : Mat) (B W i j : Nat) (hm : WfMat m B W)
    (hij : i ≤ j) (hj : j ≤ W) : WfMat (sliceCols m i j) B (j - i) := by
  refine ⟨by simp [sliceCols, hm.1], fun row hrow => ?_⟩
  rcases List.mem_map.mp hrow with ⟨r, hr, rfl⟩
  simp only [List.length_take, List.length_drop, hm.2 r hr]
  omega

theorem constMat_wf (b u : Nat) (v : Scalar) : WfMat (constMat b u v) b u := by
  refine ⟨by simp [constMat], fun row hrow => ?_⟩
  rw [List.eq_of_mem_replicate hrow]
  simp

theorem constT3_wf (b l w : Nat) (v : Scalar) : WfT3 (constT3 b l w v) b l w := by
  refine ⟨by simp [constT3], fun ex hex => ?_⟩
  rw [List.eq_of_mem_replicate hex]
  refine ⟨by simp, fun row hrow => ?_⟩
  rw [List.eq_of_mem_replicate hrow]
  simp

/-! ## Split / stack lemmas -/

theorem splitAxis1_length (x : Ten3) :
    (splitAxis1 x).length = (x.headD []).length := by
  simp [splitAxis1]

theorem splitAxis1_getD (x : Ten3) (t : Nat) (ht : t < (x.headD []).length) :
    (splitAxis1 x).getD t [] = x.map (fun ex => ex.getD t []) := by
  unfold splitAxis1
  rw [getD_map_of_lt _ _ t [] 0 (by simpa using ht),
    List.getD_eq_getElem _ _ (by simpa using ht), List.getElem_range]

theorem splitAxis1_mem_wf (x : Ten3) (B L E : Nat) (hx : WfT3 x B L E)
    (hB : 0 < B) : (splitAxis1 x).length = L ∧
      ∀ s ∈ splitAxis1 x, WfMat s B E := by
  have hhead := wfT3_headD_length x B L E hx hB
  constructor
  · rw [splitAxis1_length, hhead]
  · intro s hs
    rcases List.mem_map.mp hs with ⟨t, htr, rfl⟩
    have ht : t < L := by rw [← hhead]; exact List.mem_range.mp htr
    refine ⟨by simp [hx.1], fun row hrow => ?_⟩
    rcases List.mem_map.mp hrow with ⟨ex, hex, rfl⟩
    obtain ⟨hexl, hexw⟩ := hx.2 ex hex
    have ht2 : t < ex.length := by omega
    rw [List.getD_eq_getElem _ _ ht2]
    exact hexw _ (List.getElem_mem ht2)

theorem stackAxis1_wf (ms : List Mat) (B L U : Nat) (hms : ms.length = L)
    (hall : ∀ m ∈ ms, WfMat m B U) (hL : 0 < L) :
    WfT3 (stackAxis1 ms) B L U := by
  have hhead : (ms.headD []).length = B := by
    cases ms with
    | nil => simp at hms; omega
    | cons m t => exact (hall m (by simp)).1
  have hhead2 : (ms.head?.getD []).length = B := by
    rw [← List.headD_eq_head?_getD]; exact hhead
  refine ⟨by simp [stackAxis1, hhead2], fun ex hex => ?_⟩
  rcases List.mem_map.mp hex with ⟨bi, hbir, rfl⟩
  have hbi : bi < B := by rw [← hhead]; exact List.mem_range.mp hbir
  refine ⟨by simp [hms], fun row hrow => ?_⟩
  rcases List.mem_map.mp hrow with ⟨m, hm, rfl⟩
  exact wf_getD_length m B U bi (hall m hm) hbi

/-! ## Loop (scan) lemmas -/

theorem rnn_scan_length (tf : Scalar → Scalar) (af : AffineFn) (fp : Bool) :
    ∀ (steps : List (Mat × Mat)) (h : Mat),
      (rnn_scan tf af fp h steps).length = steps.length
  | [], _ => rfl
  | (x, cond) :: rest, h => by
    simp only [rnn_scan, List.length_cons]
    rw [rnn_scan_length tf af fp rest]

theorem lstm_scan_hs_length (tf sf : Scalar → Scalar) (af : AffineFn) :
    ∀ (steps : List (Mat × Mat)) (c h : Mat),
      (lstm_scan tf sf af c h steps).1.length = steps.length
  | [], _, _ => rfl
  | (x, cond) :: rest, c, h => by
    simp only [lstm_scan, List.length_cons]
    rw [lstm_scan_hs_length tf sf af rest]

/-- The shape invariant of the `simple_rnn` loop: all recorded states are
`(batch, units)` matrices. -/
theorem rnn_scan_wf (tf : Scalar → Scalar) (af : AffineFn) (fp : Bool)
    (B U : Nat) (haf : AffineWf af U) :
    ∀ (steps : List (Mat × Mat)) (h : Mat), WfMat h B U →
      (∀ p ∈ steps, p.1.length = B ∧ WfMat p.2 B 1) →
      ∀ m ∈ rnn_scan tf af fp h steps, WfMat m B U
  | [], _, _, _ => by intro m hm; simp [rnn_scan] at hm
  | (x, cond) :: rest, h, hh, hsteps => by
    have hx : x.length = B := (hsteps (x, cond) (by simp)).1
    have hcond : WfMat cond B 1 := (hsteps (x, cond) (by simp)).2
    have hcat : (concatM x h).length = B := by
      rw [concatM_length, hx, hh.1, min_self]
    have haff := haf fp (concatM x h)
    have hht : WfMat (mapMat tf (af fp (concatM x h))) B U :=
      mapMat_wf _ _ _ _ ⟨by rw [haff.1, hcat], haff.2⟩
    have hh2 : WfMat (whereR2 cond (mapMat tf (af fp (concatM x h))) h) B U :=
      whereR2_wf _ _ _ _ _ hcond hht hh
    intro m hm
    simp only [rnn_scan, List.mem_cons] at hm
    rcases hm with rfl | hm
    · exact hh2
    · exact rnn_scan_wf tf af fp B U haf rest _ hh2
        (fun p hp => hsteps p (by simp [hp])) m hm

/-- The LSTM cell preserves the `(batch, units)` state shapes. -/
theorem lstm_cell_wf (tf sf : Scalar → Scalar) (af : AffineFn) (B U : Nat)
    (haf : AffineWf af (4 * U)) (x c h : Mat) (hx : x.length = B)
    (hc : WfMat c B U) (hh : h.length = B) (hB : 0 < B) :
    WfMat (lstm_cell tf sf af x c h).1 B U ∧
      WfMat (lstm_cell tf sf af x c h).2 B U := by
  have hunits : (c.headD []).length = U := by
    cases c with
    | nil => rw [← hc.1] at hB; simp at hB
    | cons r t => exact hc.2 r (by simp)
  have hcat : (concatM x h).length = B := by
    rw [concatM_length, hx, hh, min_self]
  have haff := haf false (concatM x h)
  have hhid : WfMat (af false (concatM x h)) B (4 * U) :=
    ⟨by rw [haff.1, hcat], haff.2⟩
  have hslice : ∀ k, k < 4 → WfMat (mapMat tf (sliceCols (af false (concatM x h))
      ((c.headD []).length * k) ((c.headD []).length * (k+1)))) B U ∧
      WfMat (mapMat sf (sliceCols (af false (concatM x h))
      ((c.headD []).length * k) ((c.headD []).length * (k+1)))) B U := by
    intro k hk
    have hs := sliceCols_wf (af false (concatM x h)) B (4 * U)
      ((c.headD []).length * k) ((c.headD []).length * (k+1)) hhid
      (by rw [hunits]; exact Nat.mul_le_mul_left U (by omega))
      (by rw [hunits]; nlinarith)
    have hdiff : (c.headD []).length * (k+1) - (c.headD []).length * k = U := by
      rw [hunits]; ring_nf; omega
    rw [hdiff] at hs
    exact ⟨mapMat_wf _ _ _ _ hs, mapMat_wf _ _ _ _ hs⟩
  simp only [lstm_cell]
  have h0 := hslice 0 (by omega)
  have h1 := hslice 1 (by omega)
  have h2 := hslice 2 (by omega)
  have h3 := hslice 3 (by omega)
  have hcell : WfMat (add2
      (mul2 (mapMat sf (sliceCols (af false (concatM x h))
        ((c.headD []).length * 1) ((c.headD []).length * 2)))
        (mapMat tf (sliceCols (af false (concatM x h))
        ((c.headD []).length * 0) ((c.headD []).length * 1))))
      (mul2 (mapMat sf (sliceCols (af false (concatM x h))
        ((c.headD []).length * 2) ((c.headD []).length * 3))) c)) B U :=
    add2_same_wf _ _ _ _ (mul2_same_wf _ _ _ _ h1.2 h0.1)
      (mul2_same_wf _ _ _ _ h2.2 hc)
  exact ⟨hcell, mul2_same_wf _ _ _ _ h3.2 (mapMat_wf _ _ _ _ hcell)⟩

/-- The shape invariant of the `lstm` loop. -/
theorem lstm_scan_wf (tf sf : Scalar → Scalar) (af : AffineFn) (B U : Nat)
    (haf : AffineWf af (4 * U)) (hB : 0 < B) :
    ∀ (steps : List (Mat × Mat)) (c h : Mat), WfMat c B U → WfMat h B U →
      (∀ p ∈ steps, p.1.length = B ∧ WfMat p.2 B 1) →
      (∀ m ∈ (lstm_scan tf sf af c h steps).1, WfMat m B U) ∧
        WfMat (lstm_scan tf sf af c h steps).2.1 B U ∧
        WfMat (lstm_scan tf sf af c h steps).2.2 B U
  | [], c, h, hc, hh, _ => by
    refine ⟨by intro m hm; simp [lstm_scan] at hm, hc, hh⟩
  | (x, cond) :: rest, c, h, hc, hh, hsteps => by
    have hx : x.length = B := (hsteps (x, cond) (by simp)).1
    have hcond : WfMat cond B 1 := (hsteps (x, cond) (by simp)).2
    have hcellwf := lstm_cell_wf tf sf af B U haf x c h hx hc hh.1 hB
    have hc2 : WfMat (whereR2 cond (lstm_cell tf sf af x c h).1 c) B U :=
      whereR2_wf _ _ _ _ _ hcond hcellwf.1 hc
    have hh2 : WfMat (whereR2 cond (lstm_cell tf sf af x c h).2 h) B U :=
      whereR2_wf _ _ _ _ _ hcond hcellwf.2 hh
    have ih := lstm_scan_wf tf sf af B U haf hB rest _ _ hc2 hh2
      (fun p hp => hsteps p (by simp [hp]))
    refine ⟨?_, ih.2.1, ih.2.2⟩
    intro m hm
    simp only [lstm_scan, List.mem_cons] at hm
    rcases hm with rfl | hm
    · exact hh2
    · exact ih.1 m hm

/-- The output history of the `lstm` loop is the hidden component of its
state trace, and the final `(cell, hidden)` pair is the trace's last
entry. -/
theorem lstm_scan_eq_trace (tf sf : Scalar → Scalar) (af : AffineFn) :
    ∀ (steps : List (Mat × Mat)) (c h : Mat),
      (lstm_scan tf sf af c h steps).1 =
          (lstm_trace tf sf af c h steps).map Prod.snd ∧
        (lstm_scan tf sf af c h steps).2 =
          (lstm_trace tf sf af c h steps).getLastD (c, h)
  | [], c, h => ⟨rfl, rfl⟩
  | (x, cond) :: rest, c, h => by
    have ih := lstm_scan_eq_trace tf sf af rest
      (whereR2 cond (lstm_cell tf sf af x c h).1 c)
      (whereR2 cond (lstm_cell tf sf af x c h).2 h)
    simp only [lstm_scan, lstm_trace, List.map_cons, List.getLastD_cons]
    exact ⟨congrArg _ ih.1, ih.2⟩

/-- One-step unfolding of the `lstm` loop. -/
theorem lstm_scan_cons (tf sf : Scalar → Scalar) (af : AffineFn)
    (x cond c h : Mat) (rest : List (Mat × Mat)) :
    lstm_scan tf sf af c h ((x, cond) :: rest) =
      (whereR2 cond (lstm_cell tf sf af x c h).2 h ::
        (lstm_scan tf sf af (whereR2 cond (lstm_cell tf sf af x c h).1 c)
          (whereR2 cond (lstm_cell tf sf af x c h).2 h) rest).1,
       (lstm_scan tf sf af (whereR2 cond (lstm_cell tf sf af x c h).1 c)
          (whereR2 cond (lstm_cell tf sf af x c h).2 h) rest).2) := rfl

/-- If the loop runs at least one step, the last history entry is the
final hidden state. -/
theorem lstm_scan_last (tf sf : Scalar → Scalar) (af : AffineFn) :
    ∀ (steps : List (Mat × Mat)) (c h : Mat), steps ≠ [] →
      (lstm_scan tf sf af c h steps).1.getLastD [] =
        (lstm_scan tf sf af c h steps).2.2
  | [], _, _, hne => absurd rfl hne
  | (x, cond) :: rest, c, h, _ => by
    rw [lstm_scan_cons]
    set c2 := whereR2 cond (lstm_cell tf sf af x c h).1 c with hc2
    set h2 := whereR2 cond (lstm_cell tf sf af x c h).2 h with hh2
    cases hr : rest with
    | nil => simp [lstm_scan]
    | cons p rps =>
      have hlen := lstm_scan_hs_length tf sf af (p :: rps) c2 h2
      have hne2 : (lstm_scan tf sf af c2 h2 (p :: rps)).1 ≠ [] := by
        intro hnil
        rw [hnil] at hlen
        simp at hlen
      have ih := lstm_scan_last tf sf af (p :: rps) c2 h2 (by simp)
      rcases List.exists_cons_of_ne_nil hne2 with ⟨q, qs, hq⟩
      rw [hq] at ih ⊢
      rw [List.getLastD_cons] at ih
      rw [List.getLastD_cons, List.getLastD_cons]
      exact ih

/-- One-step unfolding of the `simple_rnn` loop. -/
theorem rnn_scan_cons (tf : Scalar → Scalar) (af : AffineFn) (fp : Bool)
    (x cond h : Mat) (rest : List (Mat × Mat)) :
    rnn_scan tf af fp h ((x, cond) :: rest) =
      whereR2 cond (mapMat tf (af fp (concatM x h))) h ::
        rnn_scan tf af fp (whereR2 cond (mapMat tf (af fp (concatM x h))) h)
          rest := rfl

/-- Freeze property of the `simple_rnn` loop: if example `b`'s mask slice
at step `t` is zero, the hidden state recorded after step `t` keeps, for
that example, the row it had before step `t`. -/
theorem rnn_scan_freeze (tf : Scalar → Scalar) (af : AffineFn) (fp : Bool)
    (B U b : Nat) (haf : AffineWf af U) (hb : b < B) :
    ∀ (steps : List (Mat × Mat)) (h0 : Mat) (t : Nat), WfMat h0 B U →
      (∀ p ∈ steps, p.1.length = B ∧ WfMat p.2 B 1) →
      t < steps.length →
      ((steps.getD t ([], [])).2).getD b [] = [0] →
      ((rnn_scan tf af fp h0 steps).getD t []).getD b [] =
        ((h0 :: rnn_scan tf af fp h0 steps).getD t []).getD b []
  | [], _, t, _, _, ht, _ => by simp at ht
  | (x, cond) :: rest, h0, t, hh0, hsteps, ht, hzero => by
    have hx : x.length = B := (hsteps (x, cond) (by simp)).1
    have hcond : WfMat cond B 1 := (hsteps (x, cond) (by simp)).2
    have hcat : (concatM x h0).length = B := by
      rw [concatM_length, hx, hh0.1, min_self]
    have haff := haf fp (concatM x h0)
    have hht : WfMat (mapMat tf (af fp (concatM x h0))) B U :=
      mapMat_wf _ _ _ _ ⟨by rw [haff.1, hcat], haff.2⟩
    have hh2 : WfMat (whereR2 cond (mapMat tf (af fp (concatM x h0))) h0) B U :=
      whereR2_wf _ _ _ _ _ hcond hht hh0
    rw [rnn_scan_cons]
    cases t with
    | zero =>
      simp only [List.getD_cons_zero]
      refine whereR2_getD_zero cond _ h0 b (by rw [hcond.1]; exact hb)
        (by rw [hht.1]; exact hb) (by rw [hh0.1]; exact hb) ?_ ?_
      · simpa using hzero
      · rw [wf_getD_length _ B U b hht hb, wf_getD_length _ B U b hh0 hb]
    | succ t =>
      simp only [List.getD_cons_succ]
      exact rnn_scan_freeze tf af fp B U b haf hb rest _ t hh2
        (fun p hp => hsteps p (by simp [hp])) (by simpa using ht)
        (by simpa using hzero)

/-- One-step unfolding of the `lstm` loop trace. -/
theorem lstm_trace_cons (tf sf : Scalar → Scalar) (af : AffineFn)
    (x cond c h : Mat) (rest : List (Mat × Mat)) :
    lstm_trace tf sf af c h ((x, cond) :: rest) =
      (whereR2 cond (lstm_cell tf sf af x c h).1 c,
       whereR2 cond (lstm_cell tf sf af x c h).2 h) ::
        lstm_trace tf sf af (whereR2 cond (lstm_cell tf sf af x c h).1 c)
          (whereR2 cond (lstm_cell tf sf af x c h).2 h) rest := rfl

/-- Freeze property of the `lstm` loop: if example `b`'s mask slice at
step `t` is zero, both the cell state and the hidden state after step `t`
keep, for that example, the rows they had before step `t`. -/
theorem lstm_trace_freeze (tf sf : Scalar → Scalar) (af : AffineFn)
    (B U b : Nat) (haf : AffineWf af (4 * U)) (hB : 0 < B) (hb : b < B) :
    ∀ (steps : List (Mat × Mat)) (c0 h0 : Mat) (t : Nat),
      WfMat c0 B U → WfMat h0 B U →
      (∀ p ∈ steps, p.1.length = B ∧ WfMat p.2 B 1) →
      t < steps.length →
      ((steps.getD t ([], [])).2).getD b [] = [0] →
      (((lstm_trace tf sf af c0 h0 steps).getD t ([], [])).1.getD b [] =
          ((((c0, h0) :: lstm_trace tf sf af c0 h0 steps).getD t
            ([], [])).1.getD b [])) ∧
        (((lstm_trace tf sf af c0 h0 steps).getD t ([], [])).2.getD b [] =
          ((((c0, h0) :: lstm_trace tf sf af c0 h0 steps).getD t
            ([], [])).2.getD b []))
  | [], _, _, t, _, _, _, ht, _ => by simp at ht
  | (x, cond) :: rest, c0, h0, t, hc0, hh0, hsteps, ht, hzero => by
    have hx : x.length = B := (hsteps (x, cond) (by simp)).1
    have hcond : WfMat cond B 1 := (hsteps (x, cond) (by simp)).2
    have hcellwf := lstm_cell_wf tf sf af B U haf x c0 h0 hx hc0 hh0.1 hB
    have hc2 : WfMat (whereR2 cond (lstm_cell tf sf af x c0 h0).1 c0) B U :=
      whereR2_wf _ _ _ _ _ hcond hcellwf.1 hc0
    have hh2 : WfMat (whereR2 cond (lstm_cell tf sf af x c0 h0).2 h0) B U :=
      whereR2_wf _ _ _ _ _ hcond hcellwf.2 hh0
    rw [lstm_trace_cons]
    cases t with
    | zero =>
      simp only [List.getD_cons_zero]
      constructor
      · refine whereR2_getD_zero cond _ c0 b (by rw [hcond.1]; exact hb)
          (by rw [hcellwf.1.1]; exact hb) (by rw [hc0.1]; exact hb) ?_ ?_
        · simpa using hzero
        · rw [wf_getD_length _ B U b hcellwf.1 hb,
            wf_getD_length _ B U b hc0 hb]
      · refine whereR2_getD_zero cond _ h0 b (by rw [hcond.1]; exact hb)
          (by rw [hcellwf.2.1]; exact hb) (by rw [hh0.1]; exact hb) ?_ ?_
        · simpa using hzero
        · rw [wf_getD_length _ B U b hcellwf.2 hb,
            wf_getD_length _ B U b hh0 hb]
    | succ t =>
      simp only [List.getD_cons_succ]
      exact lstm_trace_freeze tf sf af B U b haf hB hb rest _ _ t hc2 hh2
        (fun p hp => hsteps p (by simp [hp])) (by simpa using ht)
        (by simpa using hzero)

/-! ## Mask-slice bookkeeping -/

theorem getD_zip_of_lt {α β : Type} (a : List α) (b : List β) (i : Nat)
    (da : α) (db : β) (h1 : i < a.length) (h2 : i < b.length) :
    (a.zip b).getD i (da, db) = (a.getD i da, b.getD i db) :=
  getD_zipWith_of_lt Prod.mk a b i (da, db) da db h1 h2

/-- The `(b, t)` mask entry seen by the loop: slice `t` of the split mask,
row `b`, is row `b` of the mask at time `t`. -/
theorem mask_slice_getD (mask : Ten3) (B L b t : Nat)
    (hmask : WfT3 mask B L 1) (hB : 0 < B) (hb : b < B) (ht : t < L) :
    ((splitAxis1 mask).getD t []).getD b [] = (mask.getD b []).getD t [] := by
  have hhead := wfT3_headD_length mask B L 1 hmask hB
  rw [splitAxis1_getD mask t (by rw [hhead]; exact ht),
    getD_map_of_lt _ _ b [] [] (by rw [hmask.1]; exact hb)]

/-- A constant affine layer, as a concrete instance of the external
affine contract (used to instantiate theorems at concrete inputs). -/
def afConst (r : Vec) : AffineFn := fun _ m => m.map (fun _ => r)

theorem afConst_wf (r : Vec) : AffineWf (afConst r) r.length := by
  intro fl m
  refine ⟨by simp [afConst], fun q hq => ?_⟩
  rcases List.mem_map.mp hq with ⟨_, _, rfl⟩
  rfl

/-! ## C1: masking freezes state -/

/-- C1: for every timestep `t` and batch example `b`, if the mask value at
`(b, t)` is 0, then the hidden state of the simple RNN layer after
processing timestep `t` equals, exactly, the state before timestep `t`
for that example, and likewise both the cell state and the hidden state of
the LSTM layer; the LSTM layer's recorded history is the hidden component
of that state trace. -/
theorem C1_masking_freezes_state
    (tf sf : Scalar → Scalar) (af afL : AffineFn) (inputs mask : Ten3)
    (B L E U b t : Nat) (fp : Bool) (c0 h0 : Mat)
    (hin : WfT3 inputs B L E) (hmask : WfT3 mask B L 1) (hB : 0 < B)
    (haf : AffineWf af U) (hafL : AffineWf afL (4 * U))
    (hc0 : WfMat c0 B U) (hh0 : WfMat h0 B U)
    (hb : b < B) (ht : t < L)
    (hzero : (mask.getD b []).getD t [] = [0]) :
    (((rnn_scan tf af fp (constMat B U 0)
        ((splitAxis1 inputs).zip (splitAxis1 mask))).getD t []).getD b [] =
      ((constMat B U 0 :: rnn_scan tf af fp (constMat B U 0)
        ((splitAxis1 inputs).zip (splitAxis1 mask))).getD t []).getD b []) ∧
    ((((lstm_trace tf sf afL c0 h0
        ((splitAxis1 inputs).zip (splitAxis1 mask))).getD t ([], [])).1.getD
          b [] =
      ((((c0, h0) :: lstm_trace tf sf afL c0 h0
        ((splitAxis1 inputs).zip (splitAxis1 mask))).getD t ([], [])).1.getD
          b [])) ∧
      (((lstm_trace tf sf afL c0 h0
        ((splitAxis1 inputs).zip (splitAxis1 mask))).getD t ([], [])).2.getD
          b [] =
      ((((c0, h0) :: lstm_trace tf sf afL c0 h0
        ((splitAxis1 inputs).zip (splitAxis1 mask))).getD t ([], [])).2.getD
          b []))) ∧
    ((lstm_scan tf sf afL c0 h0
        ((splitAxis1 inputs).zip (splitAxis1 mask))).1 =
      (lstm_trace tf sf afL c0 h0
        ((splitAxis1 inputs).zip (splitAxis1 mask))).map Prod.snd) := by
  have hxs := splitAxis1_mem_wf inputs B L E hin hB
  have hconds := splitAxis1_mem_wf mask B L 1 hmask hB
  have hsteps : ∀ p ∈ (splitAxis1 inputs).zip (splitAxis1 mask),
      p.1.length = B ∧ WfMat p.2 B 1 := by
    intro p hp
    have hmem := List.of_mem_zip hp
    exact ⟨(hxs.2 p.1 hmem.1).1, hconds.2 p.2 hmem.2⟩
  have hlen : ((splitAxis1 inputs).zip (splitAxis1 mask)).length = L := by
    rw [List.length_zip, hxs.1, hconds.1, min_self]
  have htt : t < ((splitAxis1 inputs).zip (splitAxis1 mask)).length := by
    rw [hlen]; exact ht
  have hslice : ((((splitAxis1 inputs).zip (splitAxis1 mask)).getD t
      ([], [])).2).getD b [] = [0] := by
    rw [getD_zip_of_lt _ _ t [] [] (by rw [hxs.1]; exact ht)
      (by rw [hconds.1]; exact ht)]
    rw [mask_slice_getD mask B L b t hmask hB hb ht]
    exact hzero
  refine ⟨?_, ?_, (lstm_scan_eq_trace tf sf afL _ c0 h0).1⟩
  · exact rnn_scan_freeze tf af fp B U b haf hb _ _ t
      (constMat_wf B U 0) hsteps htt hslice
  · exact lstm_trace_freeze tf sf afL B U b hafL hB hb _ c0 h0 t hc0 hh0
      hsteps htt hslice

/-- Witness for C1 at a concrete input (one example, one timestep, one
unit, mask value 0). -/
theorem C1_masking_freezes_state_witness :
    (((rnn_scan (fun v => v) (afConst [0]) false (constMat 1 1 0)
        ((splitAxis1 [[[5]]]).zip (splitAxis1 [[[0]]]))).getD 0 []).getD
          0 [] =
      ((constMat 1 1 0 :: rnn_scan (fun v => v) (afConst [0]) false
        (constMat 1 1 0)
        ((splitAxis1 [[[5]]]).zip (splitAxis1 [[[0]]]))).getD 0 []).getD
          0 []) ∧
    ((((lstm_trace (fun v => v) (fun v => v) (afConst [0, 0, 0, 0]) [[3]]
        [[3]] ((splitAxis1 [[[5]]]).zip (splitAxis1 [[[0]]]))).getD 0
          ([], [])).1.getD 0 [] =
      (((([[3]], [[3]]) :: lstm_trace (fun v => v) (fun v => v)
        (afConst [0, 0, 0, 0]) [[3]] [[3]]
        ((splitAxis1 [[[5]]]).zip (splitAxis1 [[[0]]]))).getD 0
          ([], [])).1.getD 0 [])) ∧
      (((lstm_trace (fun v => v) (fun v => v) (afConst [0, 0, 0, 0]) [[3]]
        [[3]] ((splitAxis1 [[[5]]]).zip (splitAxis1 [[[0]]]))).getD 0
          ([], [])).2.getD 0 [] =
      (((([[3]], [[3]]) :: lstm_trace (fun v => v) (fun v => v)
        (afConst [0, 0, 0, 0]) [[3]] [[3]]
        ((splitAxis1 [[[5]]]).zip (splitAxis1 [[[0]]]))).getD 0
          ([], [])).2.getD 0 []))) ∧
    ((lstm_scan (fun v => v) (fun v => v) (afConst [0, 0, 0, 0]) [[3]]
        [[3]] ((splitAxis1 [[[5]]]).zip (splitAxis1 [[[0]]]))).1 =
      (lstm_trace (fun v => v) (fun v => v) (afConst [0, 0, 0, 0]) [[3]]
        [[3]] ((splitAxis1 [[[5]]]).zip (splitAxis1 [[[0]]]))).map
          Prod.snd) :=
  C1_masking_freezes_state (fun v => v) (fun v => v) (afConst [0])
    (afConst [0, 0, 0, 0]) [[[5]]] [[[0]]] 1 1 1 1 0 0 false [[3]] [[3]]
    (by unfold WfT3; decide) (by unfold WfT3; decide) (by decide)
    (afConst_wf [0]) (afConst_wf [0, 0, 0, 0]) (by unfold WfMat; decide)
    (by unfold WfMat; decide) (by decide) (by decide) (by decide)

/-! ## C3: correctness of the where primitive -/

/-- C3: on rank-2 tensors of matching shape with a `(batch, 1)` condition,
`where` computes `condition*x + (1 - condition)*y`; in particular an
all-ones condition returns `x` and an all-zeros condition returns `y`,
elementwise. -/
theorem C3_where_primitive (c x y : Mat) (B U : Nat)
    (hc : WfMat c B 1) (hx : WfMat x B U) (hy : WfMat y B U) :
    whereFn (.r2 c) (.r2 x) (.r2 y) =
        .r2 (add2 (mul2 c x) (mul2 (sub2 (fill2 1 c) c) y)) ∧
      ((∀ r ∈ c, r = [1]) → whereFn (.r2 c) (.r2 x) (.r2 y) = .r2 x) ∧
      ((∀ r ∈ c, r = [0]) → whereFn (.r2 c) (.r2 x) (.r2 y) = .r2 y) := by
  refine ⟨rfl, fun h1 => ?_, fun h0 => ?_⟩
  · rw [whereFn_r2]
    exact congrArg NT.r2 (whereR2_all_ones c x y (by rw [hc.1, hx.1])
      (by rw [hx.1, hy.1]) (wfmat_pairwise_len x y B U hx hy) h1)
  · rw [whereFn_r2]
    exact congrArg NT.r2 (whereR2_all_zeros c x y (by rw [hc.1, hx.1])
      (by rw [hx.1, hy.1]) (wfmat_pairwise_len x y B U hx hy) h0)

/-- Witness for C3 at a concrete shape (2, 2). -/
theorem C3_where_primitive_witness :
    (whereFn (.r2 [[1], [1]]) (.r2 [[1, 2], [3, 4]]) (.r2 [[5, 6], [7, 8]]) =
        .r2 (add2 (mul2 [[1], [1]] [[1, 2], [3, 4]])
          (mul2 (sub2 (fill2 1 [[1], [1]]) [[1], [1]]) [[5, 6], [7, 8]])) ∧
      ((∀ r ∈ ([[1], [1]] : Mat), r = [1]) →
        whereFn (.r2 [[1], [1]]) (.r2 [[1, 2], [3, 4]])
          (.r2 [[5, 6], [7, 8]]) = .r2 [[1, 2], [3, 4]]) ∧
      ((∀ r ∈ ([[1], [1]] : Mat), r = [0]) →
        whereFn (.r2 [[1], [1]]) (.r2 [[1, 2], [3, 4]])
          (.r2 [[5, 6], [7, 8]]) = .r2 [[5, 6], [7, 8]])) :=
  C3_where_primitive [[1], [1]] [[1, 2], [3, 4]] [[5, 6], [7, 8]] 2 2
    (by unfold WfMat; decide) (by unfold WfMat; decide)
    (by unfold WfMat; decide)

/-! ## C9: highway identity at zero gate -/

theorem mulRow_getD (a b : Vec) (n j : Nat) (ha : a.length = n)
    (hb : b.length = n) (hj : j < n) :
    (mulRow a b).getD j 0 = a.getD j 0 * b.getD j 0 := by
  rcases eq_or_ne n 1 with rfl | hn
  · interval_cases j
    rcases List.length_eq_one.mp ha with ⟨a0, rfl⟩
    rcases List.length_eq_one.mp hb with ⟨b0, rfl⟩
    simp [mulRow]
  · have h1 : a.length ≠ 1 := by omega
    have h2 : b.length ≠ 1 := by omega
    simp only [mulRow, beq_iff_eq, h1, h2, if_false]
    exact getD_zipWith_of_lt _ a b j 0 0 0 (by omega) (by omega)

/-- C9: at every feature position where the transform gate output is 0,
the highway layer output equals the input exactly (the output being
`plain ⊙ gate + x ⊙ (1 − gate)`). -/
theorem C9_highway_identity_at_zero_gate
    (rf sf : Scalar → Scalar) (af_plain af_transform : AffineFn) (x : Mat)
    (fp : Bool) (B U i j : Nat) (hx : WfMat x B U)
    (hafP : AffineWf af_plain U) (hafT : AffineWf af_transform U)
    (hi : i < B) (hj : j < U)
    (hgate : ((mapMat sf (af_transform fp x)).getD i []).getD j 0 = 0) :
    ((highway rf sf af_plain af_transform x fp).getD i []).getD j 0 =
      (x.getD i []).getD j 0 := by
  have haffP := hafP fp x
  have haffT := hafT fp x
  have hplain : WfMat (mapMat rf (af_plain fp x)) B U :=
    mapMat_wf _ _ _ _ ⟨by rw [haffP.1, hx.1], haffP.2⟩
  have hgatewf : WfMat (mapMat sf (af_transform fp x)) B U :=
    mapMat_wf _ _ _ _ ⟨by rw [haffT.1, hx.1], haffT.2⟩
  have homwf : WfMat (oneMinus (mapMat sf (af_transform fp x))) B U := by
    refine ⟨by simp [oneMinus, hgatewf.1], fun row hrow => ?_⟩
    rcases List.mem_map.mp hrow with ⟨r, hr, rfl⟩
    simp [hgatewf.2 r hr]
  have hip : i < (mapMat rf (af_plain fp x)).length := by rw [hplain.1]; exact hi
  have hig : i < (mapMat sf (af_transform fp x)).length := by
    rw [hgatewf.1]; exact hi
  have hix : i < x.length := by rw [hx.1]; exact hi
  have hio : i < (oneMinus (mapMat sf (af_transform fp x))).length := by
    rw [homwf.1]; exact hi
  unfold highway
  rw [add2, getD_zipWith_of_lt addRow _ _ i [] [] []
      (by rw [mul2, List.length_zipWith]; exact lt_min hip hig)
      (by rw [mul2, List.length_zipWith]; exact lt_min hix hio)]
  rw [mul2, getD_zipWith_of_lt mulRow _ _ i [] [] [] hip hig, mul2,
    getD_zipWith_of_lt mulRow _ _ i [] [] [] hix hio]
  rw [addRow, getD_zipWith_of_lt (· + ·) _ _ j 0 0 0
      (by rw [mulRow_length _ _ U (wf_getD_length _ B U i hplain hi)
        (wf_getD_length _ B U i hgatewf hi)]; exact hj)
      (by rw [mulRow_length _ _ U (wf_getD_length _ B U i hx hi)
        (wf_getD_length _ B U i homwf hi)]; exact hj)]
  rw [mulRow_getD _ _ U j (wf_getD_length _ B U i hplain hi)
      (wf_getD_length _ B U i hgatewf hi) hj,
    mulRow_getD _ _ U j (wf_getD_length _ B U i hx hi)
      (wf_getD_length _ B U i homwf hi) hj]
  have homj : ((oneMinus (mapMat sf (af_transform fp x))).getD i []).getD
      j 0 = 1 - ((mapMat sf (af_transform fp x)).getD i []).getD j 0 := by
    unfold oneMinus
    rw [getD_map_of_lt _ _ i [] [] hig,
      getD_map_of_lt _ _ j 0 0
        (by rw [wf_getD_length _ B U i hgatewf hi]; exact hj)]
  rw [homj, hgate]
  ring

/-- Witness for C9 at a concrete input with a zero transform gate. -/
theorem C9_highway_identity_at_zero_gate_witness :
    ((highway (fun v => v) (fun v => v) (afConst [7]) (afConst [0]) [[9]]
      false).getD 0 []).getD 0 0 = (([[9]] : Mat).getD 0 []).getD 0 0 :=
  C9_highway_identity_at_zero_gate (fun v => v) (fun v => v) (afConst [7])
    (afConst [0]) [[9]] false 1 1 0 0 (by unfold WfMat; decide)
    (afConst_wf [7]) (afConst_wf [0]) (by decide) (by decide) (by decide)

/-! ## C8: the unroll loop runs exactly `length` iterations -/

/-- C8: for an input of shape `(B, L, E)` and a mask whose time dimension
is also `L`, the unroll loops of `simple_rnn` and of `lstm` record exactly
`L` per-timestep entries (one appended per iteration), independently of
the data values. -/
theorem C8_unroll_runs_length_times
    (tf sf : Scalar → Scalar) (af afL : AffineFn) (inputs mask : Ten3)
    (B L E W : Nat) (fp : Bool) (h0 c0 h1 : Mat)
    (hin : WfT3 inputs B L E) (hmask : WfT3 mask B L W) (hB : 0 < B) :
    (rnn_scan tf af fp h0
        ((splitAxis1 inputs).zip (splitAxis1 mask))).length = L ∧
      (lstm_scan tf sf afL c0 h1
        ((splitAxis1 inputs).zip (splitAxis1 mask))).1.length = L := by
  have hlen : ((splitAxis1 inputs).zip (splitAxis1 mask)).length = L := by
    rw [List.length_zip, splitAxis1_length, splitAxis1_length,
      wfT3_headD_length inputs B L E hin hB,
      wfT3_headD_length mask B L W hmask hB, min_self]
  exact ⟨by rw [rnn_scan_length, hlen], by rw [lstm_scan_hs_length, hlen]⟩

/-- Witness for C8 at a concrete input of shape (1, 2, 1). -/
theorem C8_unroll_runs_length_times_witness :
    (rnn_scan (fun v => v) (afConst [0]) false [[0]]
        ((splitAxis1 [[[1], [2]]]).zip (splitAxis1 [[[1], [0]]]))).length =
        2 ∧
      (lstm_scan (fun v => v) (fun v => v) (afConst [0, 0, 0, 0]) [[0]]
        [[0]] ((splitAxis1 [[[1], [2]]]).zip
          (splitAxis1 [[[1], [0]]]))).1.length = 2 :=
  C8_unroll_runs_length_times (fun v => v) (fun v => v) (afConst [0])
    (afConst [0, 0, 0, 0]) [[[1], [2]]] [[[1], [0]]] 1 2 1 1 false [[0]]
    [[0]] [[0]] (by unfold WfT3; decide) (by unfold WfT3; decide)
    (by decide)

/-! ## C5: all-ones mask is the default mask -/

/-- A well-formed `(B, L, 1)` mask whose entries are all 1 is exactly the
constant tensor the layers construct when `mask` is `None`. -/
theorem allones_eq_constT3 (m : Ten3) (B L : Nat) (hm : WfT3 m B L 1)
    (hones : ∀ ex ∈ m, ∀ r ∈ ex, r = [1]) : m = constT3 B L 1 1 := by
  unfold constT3
  rw [List.eq_replicate_iff]
  refine ⟨hm.1, fun ex hex => ?_⟩
  rw [List.eq_replicate_iff]
  refine ⟨(hm.2 ex hex).1, fun r hr => ?_⟩
  rw [hones ex hex r hr]
  rfl

/-- C5: running `simple_rnn` or `lstm` with an explicit all-ones mask
produces the same hidden-state trajectory (and the same outputs) as
running with `mask = None`, the default. -/
theorem C5_all_ones_mask_equivalence
    (tf sf : Scalar → Scalar) (af afL : AffineFn) (inputs m : Ten3)
    (U : Nat) (rs rst fp fp2 : Bool) (ist : Option (List Mat)) (c0 h0 : Mat)
    (hm : WfT3 m inputs.length (inputs.headD []).length 1)
    (hones : ∀ ex ∈ m, ∀ r ∈ ex, r = [1]) :
    simple_rnn tf af inputs U (some m) rs fp =
        simple_rnn tf af inputs U none rs fp ∧
      rnn_scan tf af fp (constMat inputs.length U 0)
          ((splitAxis1 inputs).zip (splitAxis1 m)) =
        rnn_scan tf af fp (constMat inputs.length U 0)
          ((splitAxis1 inputs).zip (splitAxis1 (constT3 inputs.length
            (inputs.headD []).length 1 1))) ∧
      lstm_scan tf sf afL c0 h0
          ((splitAxis1 inputs).zip (splitAxis1 m)) =
        lstm_scan tf sf afL c0 h0 ((splitAxis1 inputs).zip (splitAxis1
          (constT3 inputs.length (inputs.headD []).length 1 1))) ∧
      lstm tf sf afL inputs U (some m) ist rs rst fp2 =
        lstm tf sf afL inputs U none ist rs rst fp2 := by
  have hconst : m = constT3 inputs.length (inputs.headD []).length 1 1 :=
    allones_eq_constT3 m inputs.length (inputs.headD []).length hm hones
  subst hconst
  exact ⟨rfl, rfl, rfl, rfl⟩

/-- Witness for C5 at a concrete input with an explicit all-ones mask. -/
theorem C5_all_ones_mask_equivalence_witness :
    simple_rnn (fun v => v) (afConst [0]) [[[2]]] 1 (some [[[1]]]) false
        false =
      simple_rnn (fun v => v) (afConst [0]) [[[2]]] 1 none false false ∧
    rnn_scan (fun v => v) (afConst [0]) false (constMat ([[[2]]] : Ten3).length 1 0)
        ((splitAxis1 [[[2]]]).zip (splitAxis1 [[[1]]])) =
      rnn_scan (fun v => v) (afConst [0]) false (constMat ([[[2]]] : Ten3).length 1 0)
        ((splitAxis1 [[[2]]]).zip (splitAxis1 (constT3 ([[[2]]] : Ten3).length
          (([[[2]]] : Ten3).headD []).length 1 1))) ∧
    lstm_scan (fun v => v) (fun v => v) (afConst [0, 0, 0, 0]) [[0]] [[0]]
        ((splitAxis1 [[[2]]]).zip (splitAxis1 [[[1]]])) =
      lstm_scan (fun v => v) (fun v => v) (afConst [0, 0, 0, 0]) [[0]] [[0]]
        ((splitAxis1 [[[2]]]).zip (splitAxis1 (constT3 ([[[2]]] : Ten3).length
          (([[[2]]] : Ten3).headD []).length 1 1))) ∧
    lstm (fun v => v) (fun v => v) (afConst [0, 0, 0, 0]) [[[2]]] 1
        (some [[[1]]]) none false false false =
      lstm (fun v => v) (fun v => v) (afConst [0, 0, 0, 0]) [[[2]]] 1 none
        none false false false :=
  C5_all_ones_mask_equivalence (fun v => v) (fun v => v) (afConst [0])
    (afConst [0, 0, 0, 0]) [[[2]]] [[[1]]] 1 false false false false none
    [[0]] [[0]] (by unfold WfT3; decide) (by decide)

/-! ## C6: eager validation of the LSTM initial state -/

/-- C6: a provided `initial_state` passes the LSTM layer's eager
validation (the call returns a value) exactly when it has two elements
whose shapes are identical, whose batch dimension matches the inputs, and
whose feature dimension equals `units`; otherwise the call fails with a
usage error before any recurrent computation. -/
theorem C6_initial_state_validation
    (tf sf : Scalar → Scalar) (af : AffineFn) (inputs : Ten3) (units : Nat)
    (mo : Option Ten3) (st : List Mat) (rs rst fp : Bool) :
    ((∃ r, lstm tf sf af inputs units mo (some st) rs rst fp = .ok r) ↔
      (st.length = 2 ∧ matShape (st.getD 0 []) = matShape (st.getD 1 []) ∧
        (st.getD 0 []).length = inputs.length ∧
        ((st.getD 0 []).headD []).length = units)) ∧
    (¬ (st.length = 2 ∧ matShape (st.getD 0 []) = matShape (st.getD 1 []) ∧
        (st.getD 0 []).length = inputs.length ∧
        ((st.getD 0 []).headD []).length = units) →
      ∃ e, lstm tf sf af inputs units mo (some st) rs rst fp = .error e) := by
  have hiff : (∃ r, lstm tf sf af inputs units mo (some st) rs rst fp =
      .ok r) ↔
      (st.length = 2 ∧ matShape (st.getD 0 []) = matShape (st.getD 1 []) ∧
        (st.getD 0 []).length = inputs.length ∧
        ((st.getD 0 []).headD []).length = units) := by
    constructor
    · rintro ⟨r, hr⟩
      simp only [lstm] at hr
      split_ifs at hr with h1 h2 h3 h4
      · exact ⟨h1, h2, h3, h4⟩
    · rintro ⟨h1, h2, h3, h4⟩
      have hok : lstm tf sf af inputs units mo (some st) rs rst fp =
          .ok (lstm_body tf sf af inputs mo (st.getD 0 []) (st.getD 1 [])
            rs rst) := by
        simp only [lstm]
        rw [if_pos h1, if_pos h2, if_pos h3, if_pos h4]
      exact ⟨_, hok⟩
  refine ⟨hiff, fun hn => ?_⟩
  cases hval : lstm tf sf af inputs units mo (some st) rs rst fp with
  | error e => exact ⟨e, rfl⟩
  | ok r => exact absurd (hiff.mp ⟨r, hval⟩) hn

/-- Witness for C6: a well-shaped two-element initial state passes
validation at a concrete input. -/
theorem C6_initial_state_validation_witness :
    ∃ r, lstm (fun v => v) (fun v => v) (afConst [0, 0, 0, 0]) [[[2]]] 1
      none (some [[[0]], [[0]]]) false false false = .ok r :=
  (C6_initial_state_validation (fun v => v) (fun v => v)
    (afConst [0, 0, 0, 0]) [[[2]]] 1 none [[[0]], [[0]]] false false
    false).1.mpr (by decide)

/-! ## C2: the LSTM cell computes the specified formula -/

/-- Plain elementwise product of two rank-2 tensors (the spec's `⊙`). -/
def emul2 (a b : Mat) : Mat := List.zipWith (List.zipWith (· * ·)) a b

/-- The LSTM cell as the specification words it: concatenate `x` and `h`;
apply one affine transform producing `4 × units` outputs; split into four
equal blocks in the fixed order `[a, input_gate, forget_gate,
output_gate]`; apply tanh to `a` and sigmoid to the three gates; new cell
`= input_gate ⊙ a + forget_gate ⊙ c`; new hidden
`= output_gate ⊙ tanh(new cell)`; return `(new cell, new hidden)`.  A pure
function of its three inputs and the layer's affine transform. -/
def lstm_cell_spec (tf sf : Scalar → Scalar) (af : AffineFn) (units : Nat)
    (x c h : Mat) : Mat × Mat :=
  let z := af false (concatM x h)
  let a           := mapMat tf (z.map (fun r => (r.drop (units*0)).take units))
  let input_gate  := mapMat sf (z.map (fun r => (r.drop (units*1)).take units))
  let forget_gate := mapMat sf (z.map (fun r => (r.drop (units*2)).take units))
  let output_gate := mapMat sf (z.map (fun r => (r.drop (units*3)).take units))
  let cell := add2 (emul2 input_gate a) (emul2 forget_gate c)
  let hidden := emul2 output_gate (mapMat tf cell)
  (cell, hidden)

theorem mulRow_eq_zipWith (a b : Vec) (h : a.length = b.length) :
    mulRow a b = List.zipWith (· * ·) a b := by
  rcases eq_or_ne a.length 1 with h1 | h1
  · rcases List.length_eq_one.mp h1 with ⟨a0, rfl⟩
    rcases List.length_eq_one.mp (h ▸ h1) with ⟨b0, rfl⟩
    simp [mulRow]
  · have h2 : b.length ≠ 1 := by omega
    simp only [mulRow, beq_iff_eq, h1, h2, if_false]

theorem mul2_eq_emul2 {a b : Mat}
    (h : List.Forall₂ (fun (p q : Vec) => p.length = q.length) a b) :
    mul2 a b = emul2 a b := by
  induction h with
  | nil => rfl
  | cons hpq _ ih =>
    simp only [mul2, emul2, List.zipWith_cons_cons] at *
    rw [mulRow_eq_zipWith _ _ hpq, ih]

theorem block_wf (z : Mat) (B U d : Nat) (hz : WfMat z B (4 * U))
    (hd : d + U ≤ 4 * U) :
    WfMat (z.map (fun r => (r.drop d).take U)) B U := by
  refine ⟨by simp [hz.1], fun row hrow => ?_⟩
  rcases List.mem_map.mp hrow with ⟨r, hr, rfl⟩
  simp only [List.length_take, List.length_drop, hz.2 r hr]
  omega

/-- C2: `lstm_cell` computes exactly the formula of the specification. -/
theorem C2_lstm_cell_formula (tf sf : Scalar → Scalar) (af : AffineFn)
    (x c h : Mat) (B U : Nat) (hB : 0 < B) (hx : x.length = B)
    (hc : WfMat c B U) (hh : h.length = B) (haf : AffineWf af (4 * U)) :
    lstm_cell tf sf af x c h = lstm_cell_spec tf sf af U x c h := by
  have hunits : (c.headD []).length = U := by
    cases c with
    | nil => rw [← hc.1] at hB; simp at hB
    | cons r t => exact hc.2 r (by simp)
  have hcat : (concatM x h).length = B := by
    rw [concatM_length, hx, hh, min_self]
  have haff := haf false (concatM x h)
  have hzwf : WfMat (af false (concatM x h)) B (4 * U) :=
    ⟨by rw [haff.1, hcat], haff.2⟩
  have e0 : sliceCols (af false (concatM x h)) (U*0) (U*1) =
      (af false (concatM x h)).map (fun r => (r.drop (U*0)).take U) := by
    simp only [sliceCols, show U*1 - U*0 = U from by omega]
  have e1 : sliceCols (af false (concatM x h)) (U*1) (U*2) =
      (af false (concatM x h)).map (fun r => (r.drop (U*1)).take U) := by
    simp only [sliceCols, show U*2 - U*1 = U from by omega]
  have e2 : sliceCols (af false (concatM x h)) (U*2) (U*3) =
      (af false (concatM x h)).map (fun r => (r.drop (U*2)).take U) := by
    simp only [sliceCols, show U*3 - U*2 = U from by omega]
  have e3 : sliceCols (af false (concatM x h)) (U*3) (U*4) =
      (af false (concatM x h)).map (fun r => (r.drop (U*3)).take U) := by
    simp only [sliceCols, show U*4 - U*3 = U from by omega]
  have hA := mapMat_wf tf _ B U
    (block_wf _ B U (U*0) hzwf (by omega))
  have hIG := mapMat_wf sf _ B U
    (block_wf _ B U (U*1) hzwf (by omega))
  have hFG := mapMat_wf sf _ B U
    (block_wf _ B U (U*2) hzwf (by omega))
  have hOG := mapMat_wf sf _ B U
    (block_wf _ B U (U*3) hzwf (by omega))
  simp only [lstm_cell, lstm_cell_spec, hunits]
  rw [e0, e1, e2, e3]
  have m1 : mul2 (mapMat sf ((af false (concatM x h)).map
        (fun r => (r.drop (U*1)).take U)))
      (mapMat tf ((af false (concatM x h)).map
        (fun r => (r.drop (U*0)).take U))) =
      emul2 (mapMat sf ((af false (concatM x h)).map
        (fun r => (r.drop (U*1)).take U)))
      (mapMat tf ((af false (concatM x h)).map
        (fun r => (r.drop (U*0)).take U))) :=
    mul2_eq_emul2 (wfmat_pairwise_len _ _ B U hIG hA)
  have m2 : mul2 (mapMat sf ((af false (concatM x h)).map
        (fun r => (r.drop (U*2)).take U))) c =
      emul2 (mapMat sf ((af false (concatM x h)).map
        (fun r => (r.drop (U*2)).take U))) c :=
    mul2_eq_emul2 (wfmat_pairwise_len _ _ B U hFG hc)
  rw [m1, m2]
  have hcellwf : WfMat (add2 (emul2 (mapMat sf ((af false (concatM x h)).map
      (fun r => (r.drop (U*1)).take U)))
      (mapMat tf ((af false (concatM x h)).map
        (fun r => (r.drop (U*0)).take U))))
      (emul2 (mapMat sf ((af false (concatM x h)).map
        (fun r => (r.drop (U*2)).take U))) c)) B U := by
    have base := add2_same_wf _ _ B U
      (mul2_same_wf _ _ B U hIG hA) (mul2_same_wf _ _ B U hFG hc)
    rwa [m1, m2] at base
  have m3 := mul2_eq_emul2 (wfmat_pairwise_len _ _ B U hOG
    (mapMat_wf tf _ B U hcellwf))
  rw [m3]

/-- Witness for C2 at a concrete input (batch 1, unit 1). -/
theorem C2_lstm_cell_formula_witness :
    lstm_cell (fun v => v) (fun v => v) (afConst [1, 2, 3, 4]) [[5]] [[6]]
        [[7]] =
      lstm_cell_spec (fun v => v) (fun v => v) (afConst [1, 2, 3, 4]) 1
        [[5]] [[6]] [[7]] :=
  C2_lstm_cell_formula (fun v => v) (fun v => v) (afConst [1, 2, 3, 4])
    [[5]] [[6]] [[7]] 1 1 (by decide) (by decide)
    (by unfold WfMat; decide) (by decide) (afConst_wf [1, 2, 3, 4])

/-! ## C10: with return_state, the primary output is the final hidden -/

theorem constT3_headD_length (b l w : Nat) (v : Scalar) (hb : 0 < b) :
    ((constT3 b l w v).headD []).length = l := by
  cases b with
  | zero => omega
  | succ n => simp [constT3, List.replicate_succ]

/-- C10: whenever `lstm` is called with `return_state = True` and
`return_sequences = False` on an input whose time dimension is at least 1,
its primary output is exactly the final hidden state it also returns. -/
theorem C10_primary_output_is_final_hidden
    (tf sf : Scalar → Scalar) (af : AffineFn) (inputs : Ten3) (units : Nat)
    (mo : Option Ten3) (ist : Option (List Mat)) (fp : Bool)
    (B L E : Nat) (hin : WfT3 inputs B L E) (hB : 0 < B) (hL : 0 < L)
    (hmo : ∀ m, mo = some m → WfT3 m B L 1) (out : LSTMOut)
    (hout : lstm tf sf af inputs units mo ist false true fp = .ok out) :
    ∃ hfin cfin, out = .withState (.r2 hfin) cfin hfin := by
  have hLi : (inputs.headD []).length = L := wfT3_headD_length _ B L E hin hB
  have hne : ∀ mask2 : Ten3, (mask2.headD []).length = L →
      (splitAxis1 inputs).zip (splitAxis1 mask2) ≠ [] := by
    intro mask2 hm2
    have hlen : ((splitAxis1 inputs).zip (splitAxis1 mask2)).length = L := by
      rw [List.length_zip, splitAxis1_length, splitAxis1_length, hLi, hm2,
        min_self]
    intro hnil
    rw [hnil] at hlen
    simp at hlen
    omega
  cases mo with
  | none =>
    have hm2 : ((constT3 inputs.length (inputs.headD []).length 1
        1).headD []).length = L :=
      (constT3_headD_length inputs.length (inputs.headD []).length 1 1
        (by rw [hin.1]; exact hB)).trans hLi
    have hbody : ∀ c0 h0 : Mat, ∃ hfin cfin,
        lstm_body tf sf af inputs none c0 h0 false true =
          .withState (.r2 hfin) cfin hfin := by
      intro c0 h0
      refine ⟨(lstm_scan tf sf af c0 h0 ((splitAxis1 inputs).zip
          (splitAxis1 (constT3 inputs.length (inputs.headD []).length 1
            1)))).2.2,
        (lstm_scan tf sf af c0 h0 ((splitAxis1 inputs).zip
          (splitAxis1 (constT3 inputs.length (inputs.headD []).length 1
            1)))).2.1, ?_⟩
      simp only [lstm_body]
      rw [lstm_scan_last tf sf af _ c0 h0 (hne _ hm2)]
      simp
    cases ist with
    | none =>
      simp only [lstm] at hout
      rcases hbody (constMat inputs.length units 0)
        (constMat inputs.length units 0) with ⟨hf, cf, hb⟩
      have heq := Except.ok.inj hout
      exact ⟨hf, cf, by rw [← heq]; exact hb⟩
    | some st =>
      simp only [lstm] at hout
      split_ifs at hout with h1 h2 h3 h4
      rcases hbody (st.getD 0 []) (st.getD 1 []) with ⟨hf, cf, hb⟩
      have heq := Except.ok.inj hout
      exact ⟨hf, cf, by rw [← heq]; exact hb⟩
  | some m =>
    have hm2 : (m.headD []).length = L :=
      wfT3_headD_length m B L 1 (hmo m rfl) hB
    have hbody : ∀ c0 h0 : Mat, ∃ hfin cfin,
        lstm_body tf sf af inputs (some m) c0 h0 false true =
          .withState (.r2 hfin) cfin hfin := by
      intro c0 h0
      refine ⟨(lstm_scan tf sf af c0 h0 ((splitAxis1 inputs).zip
          (splitAxis1 m))).2.2,
        (lstm_scan tf sf af c0 h0 ((splitAxis1 inputs).zip
          (splitAxis1 m))).2.1, ?_⟩
      simp only [lstm_body]
      rw [lstm_scan_last tf sf af _ c0 h0 (hne _ hm2)]
      simp
    cases ist with
    | none =>
      simp only [lstm] at hout
      rcases hbody (constMat inputs.length units 0)
        (constMat inputs.length units 0) with ⟨hf, cf, hb⟩
      have heq := Except.ok.inj hout
      exact ⟨hf, cf, by rw [← heq]; exact hb⟩
    | some st =>
      simp only [lstm] at hout
      split_ifs at hout with h1 h2 h3 h4
      rcases hbody (st.getD 0 []) (st.getD 1 []) with ⟨hf, cf, hb⟩
      have heq := Except.ok.inj hout
      exact ⟨hf, cf, by rw [← heq]; exact hb⟩

/-- Witness for C10 at a concrete call. -/
theorem C10_primary_output_is_final_hidden_witness :
    ∃ hfin cfin, (LSTMOut.withState (.r2 [[0]]) [[0]] [[0]]) =
      .withState (.r2 hfin) cfin hfin :=
  C10_primary_output_is_final_hidden (fun v => v) (fun v => v)
    (afConst [0, 0, 0, 0]) [[[2]]] 1 none none false 1 1 1
    (by unfold WfT3; decide) (by decide) (by decide)
    (fun m hm => Option.noConfusion hm)
    (LSTMOut.withState (.r2 [[0]]) [[0]] [[0]]) (by rfl)

/-! ## C4: shape contracts -/

theorem getLastD_mem {α : Type} : ∀ (l : List α) (d : α), l ≠ [] →
    l.getLastD d ∈ l
  | [], _, h => absurd rfl h
  | [a], _, _ => by simp
  | a :: b :: t, d, _ => by
    rw [List.getLastD_cons]
    exact List.mem_cons_of_mem a (getLastD_mem (b :: t) a (by simp))

theorem constMat_wf_of (b b2 u : Nat) (v : Scalar) (h : b = b2) :
    WfMat (constMat b u v) b2 u := by
  subst h
  exact constMat_wf b u v

theorem constT3_wf_of (b b2 l l2 w : Nat) (v : Scalar) (hb : b = b2)
    (hl : l = l2) : WfT3 (constT3 b l w v) b2 l2 w := by
  subst hb
  subst hl
  exact constT3_wf b l w v

/-- Output shapes produced by the `simple_rnn` loop on a well-formed
input and mask. -/
theorem rnn_shapes_core (tf : Scalar → Scalar) (af : AffineFn) (fp : Bool)
    (inputs mask2 : Ten3) (B L E U : Nat)
    (hin : WfT3 inputs B L E) (hm : WfT3 mask2 B L 1)
    (hB : 0 < B) (hL : 0 < L) (haf : AffineWf af U) :
    WfT3 (stackAxis1 (rnn_scan tf af fp (constMat inputs.length U 0)
        ((splitAxis1 inputs).zip (splitAxis1 mask2)))) B L U ∧
      WfMat ((rnn_scan tf af fp (constMat inputs.length U 0)
        ((splitAxis1 inputs).zip (splitAxis1 mask2))).getLastD []) B U := by
  have hxs := splitAxis1_mem_wf inputs B L E hin hB
  have hcs := splitAxis1_mem_wf mask2 B L 1 hm hB
  have hsteps : ∀ p ∈ (splitAxis1 inputs).zip (splitAxis1 mask2),
      p.1.length = B ∧ WfMat p.2 B 1 := fun p hp =>
    ⟨(hxs.2 p.1 (List.of_mem_zip hp).1).1, hcs.2 p.2 (List.of_mem_zip hp).2⟩
  have hlen : ((splitAxis1 inputs).zip (splitAxis1 mask2)).length = L := by
    rw [List.length_zip, hxs.1, hcs.1, min_self]
  have h0wf : WfMat (constMat inputs.length U 0) B U :=
    constMat_wf_of inputs.length B U 0 hin.1
  have hall := rnn_scan_wf tf af fp B U haf _ _ h0wf hsteps
  have hslen : (rnn_scan tf af fp (constMat inputs.length U 0)
      ((splitAxis1 inputs).zip (splitAxis1 mask2))).length = L := by
    rw [rnn_scan_length, hlen]
  refine ⟨stackAxis1_wf _ B L U hslen hall hL, ?_⟩
  have hne : rnn_scan tf af fp (constMat inputs.length U 0)
      ((splitAxis1 inputs).zip (splitAxis1 mask2)) ≠ [] := by
    intro hnil
    rw [hnil] at hslen
    simp at hslen
    omega
  exact hall _ (getLastD_mem _ [] hne)

/-- Output shapes produced by the `lstm` loop on a well-formed input,
mask and initial state. -/
theorem lstm_shapes_core (tf sf : Scalar → Scalar) (af : AffineFn)
    (inputs mask2 : Ten3) (c0 h0 : Mat) (B L E U : Nat)
    (hin : WfT3 inputs B L E) (hm : WfT3 mask2 B L 1)
    (hB : 0 < B) (hL : 0 < L) (haf : AffineWf af (4 * U))
    (hc0 : WfMat c0 B U) (hh0 : WfMat h0 B U) :
    WfT3 (stackAxis1 (lstm_scan tf sf af c0 h0
        ((splitAxis1 inputs).zip (splitAxis1 mask2))).1) B L U ∧
      WfMat ((lstm_scan tf sf af c0 h0
        ((splitAxis1 inputs).zip (splitAxis1 mask2))).1.getLastD []) B U ∧
      WfMat (lstm_scan tf sf af c0 h0
        ((splitAxis1 inputs).zip (splitAxis1 mask2))).2.1 B U ∧
      WfMat (lstm_scan tf sf af c0 h0
        ((splitAxis1 inputs).zip (splitAxis1 mask2))).2.2 B U := by
  have hxs := splitAxis1_mem_wf inputs B L E hin hB
  have hcs := splitAxis1_mem_wf mask2 B L 1 hm hB
  have hsteps : ∀ p ∈ (splitAxis1 inputs).zip (splitAxis1 mask2),
      p.1.length = B ∧ WfMat p.2 B 1 := fun p hp =>
    ⟨(hxs.2 p.1 (List.of_mem_zip hp).1).1, hcs.2 p.2 (List.of_mem_zip hp).2⟩
  have hlen : ((splitAxis1 inputs).zip (splitAxis1 mask2)).length = L := by
    rw [List.length_zip, hxs.1, hcs.1, min_self]
  have hall := lstm_scan_wf tf sf af B U haf hB _ c0 h0 hc0 hh0 hsteps
  have hslen : (lstm_scan tf sf af c0 h0
      ((splitAxis1 inputs).zip (splitAxis1 mask2))).1.length = L := by
    rw [lstm_scan_hs_length, hlen]
  have hne : (lstm_scan tf sf af c0 h0
      ((splitAxis1 inputs).zip (splitAxis1 mask2))).1 ≠ [] := by
    intro hnil
    rw [hnil] at hslen
    simp at hslen
    omega
  exact ⟨stackAxis1_wf _ B L U hslen hall.1 hL,
    hall.1 _ (getLastD_mem _ [] hne), hall.2.1, hall.2.2⟩

/-- C4: for inputs of shape `(B, L, E)` and `units = U`, the layers meet
their shape contracts: `return_sequences = True` yields a `(B, L, U)`
tensor and `return_sequences = False` a `(B, U)` tensor, for both
`simple_rnn` and `lstm`; `lstm` with `return_state = True` additionally
returns a final cell and a final hidden tensor, each `(B, U)`. -/
theorem C4_shape_contracts (tf sf : Scalar → Scalar) (af afL : AffineFn)
    (inputs : Ten3) (B L E U : Nat) (mo : Option Ten3) (fp : Bool)
    (hin : WfT3 inputs B L E) (hB : 0 < B) (hL : 0 < L)
    (hmo : ∀ m, mo = some m → WfT3 m B L 1)
    (haf : AffineWf af U) (hafL : AffineWf afL (4 * U)) :
    (∃ T, simple_rnn tf af inputs U mo true fp = .r3 T ∧ WfT3 T B L U) ∧
      (∃ M, simple_rnn tf af inputs U mo false fp = .r2 M ∧
        WfMat M B U) ∧
      (∃ T c h, lstm tf sf afL inputs U mo none true true fp =
        .ok (.withState (.r3 T) c h) ∧ WfT3 T B L U ∧ WfMat c B U ∧
        WfMat h B U) ∧
      (∃ M c h, lstm tf sf afL inputs U mo none false true fp =
        .ok (.withState (.r2 M) c h) ∧ WfMat M B U ∧ WfMat c B U ∧
        WfMat h B U) ∧
      (∃ T, lstm tf sf afL inputs U mo none true false fp =
        .ok (.single (.r3 T)) ∧ WfT3 T B L U) ∧
      (∃ M, lstm tf sf afL inputs U mo none false false fp =
        .ok (.single (.r2 M)) ∧ WfMat M B U) := by
  have hLi : (inputs.headD []).length = L := wfT3_headD_length _ B L E hin hB
  have hc0 : WfMat (constMat inputs.length U 0) B U :=
    constMat_wf_of inputs.length B U 0 hin.1
  cases mo with
  | none =>
    have hm : WfT3 (constT3 inputs.length (inputs.headD []).length 1 1)
        B L 1 :=
      constT3_wf_of inputs.length B (inputs.headD []).length L 1 1
        hin.1 hLi
    have core1 := rnn_shapes_core tf af fp inputs _ B L E U hin hm hB hL haf
    have core2 := lstm_shapes_core tf sf afL inputs _
      (constMat inputs.length U 0) (constMat inputs.length U 0) B L E U
      hin hm hB hL hafL hc0 hc0
    exact ⟨⟨_, rfl, core1.1⟩, ⟨_, rfl, core1.2⟩,
      ⟨_, _, _, rfl, core2.1, core2.2.2.1, core2.2.2.2⟩,
      ⟨_, _, _, rfl, core2.2.1, core2.2.2.1, core2.2.2.2⟩,
      ⟨_, rfl, core2.1⟩, ⟨_, rfl, core2.2.1⟩⟩
  | some m =>
    have hm : WfT3 m B L 1 := hmo m rfl
    have core1 := rnn_shapes_core tf af fp inputs m B L E U hin hm hB hL haf
    have core2 := lstm_shapes_core tf sf afL inputs m
      (constMat inputs.length U 0) (constMat inputs.length U 0) B L E U
      hin hm hB hL hafL hc0 hc0
    exact ⟨⟨_, rfl, core1.1⟩, ⟨_, rfl, core1.2⟩,
      ⟨_, _, _, rfl, core2.1, core2.2.2.1, core2.2.2.2⟩,
      ⟨_, _, _, rfl, core2.2.1, core2.2.2.1, core2.2.2.2⟩,
      ⟨_, rfl, core2.1⟩, ⟨_, rfl, core2.2.1⟩⟩

/-- Witness for C4 at a concrete input of shape (1, 1, 1) with one unit. -/
theorem C4_shape_contracts_witness :
    (∃ T, simple_rnn (fun v => v) (afConst [0]) [[[2]]] 1 none true false =
      .r3 T ∧ WfT3 T 1 1 1) ∧
      (∃ M, simple_rnn (fun v => v) (afConst [0]) [[[2]]] 1 none false
        false = .r2 M ∧ WfMat M 1 1) ∧
      (∃ T c h, lstm (fun v => v) (fun v => v) (afConst [0, 0, 0, 0])
        [[[2]]] 1 none none true true false =
        .ok (.withState (.r3 T) c h) ∧ WfT3 T 1 1 1 ∧ WfMat c 1 1 ∧
        WfMat h 1 1) ∧
      (∃ M c h, lstm (fun v => v) (fun v => v) (afConst [0, 0, 0, 0])
        [[[2]]] 1 none none false true false =
        .ok (.withState (.r2 M) c h) ∧ WfMat M 1 1 ∧ WfMat c 1 1 ∧
        WfMat h 1 1) ∧
      (∃ T, lstm (fun v => v) (fun v => v) (afConst [0, 0, 0, 0]) [[[2]]]
        1 none none true false false = .ok (.single (.r3 T)) ∧
        WfT3 T 1 1 1) ∧
      (∃ M, lstm (fun v => v) (fun v => v) (afConst [0, 0, 0, 0]) [[[2]]]
        1 none none false false false = .ok (.single (.r2 M)) ∧
        WfMat M 1 1) :=
  C4_shape_contracts (fun v => v) (fun v => v) (afConst [0])
    (afConst [0, 0, 0, 0]) [[[2]]] 1 1 1 1 none false
    (by unfold WfT3; decide) (by decide) (by decide)
    (fun m hm => Option.noConfusion hm) (afConst_wf [0])
    (afConst_wf [0, 0, 0, 0])

/-! ## C7: the LSTM `fix_parameters` flag is ignored (code bug)

`lstm` accepts `fix_parameters` and its docstring promises
`need_grad=False`, but the loop calls `lstm_cell`, whose `PF.affine` call
(line 56) passes no `fix_parameters` at all — so the affine's parameters
are registered with the default `False` (trainable) regardless of the
flag handed to the layer. -/

/-- An affine model that reveals the `fix_parameters` flag it receives:
the first two outputs are 1 when the flag is set and 0 otherwise. -/
def afSense : AffineFn := fun fl m =>
  m.map (fun _ => [if fl then 1 else 0, if fl then 1 else 0, 0, 0])

/-- C7 (as a statement about the code as written): the `fix_parameters`
argument of `lstm` has no effect whatsoever on the layer, and the cell
uses its affine transform only at flag `false` (the omitted-argument
default), never at the flag the layer received; at a concrete input a
flag-revealing affine observes `false` even when the layer is called with
`fix_parameters = true`, whereas a forwarded flag would be observable. -/
theorem C7_fix_parameters_never_forwarded :
    (∀ (tf sf : Scalar → Scalar) (af : AffineFn) (inputs : Ten3)
      (units : Nat) (mask : Option Ten3) (ist : Option (List Mat))
      (rs rst : Bool),
      lstm tf sf af inputs units mask ist rs rst true =
        lstm tf sf af inputs units mask ist rs rst false) ∧
    (∀ (tf sf : Scalar → Scalar) (af af2 : AffineFn) (x c h : Mat),
      af false = af2 false →
        lstm_cell tf sf af x c h = lstm_cell tf sf af2 x c h) ∧
    lstm (fun v => v) (fun v => v) afSense [[[2]]] 1 none none false true
        true = .ok (.withState (.r2 [[0]]) [[0]] [[0]]) ∧
    lstm (fun v => v) (fun v => v) (fun _ m => afSense true m) [[[2]]] 1
        none none false true true =
      .ok (.withState (.r2 [[0]]) [[1]] [[0]]) := by
  refine ⟨fun tf sf af inputs units mask ist rs rst => rfl,
    fun tf sf af af2 x c h hff => ?_, by rfl, by rfl⟩
  unfold lstm_cell
  rw [hff]

/-- Witness for C7: the flag-irrelevance applied at a concrete call with
`fix_parameters = true`. -/
theorem C7_fix_parameters_never_forwarded_witness :
    lstm (fun v => v) (fun v => v) afSense [[[2]]] 1 none none false false
        true =
      lstm (fun v => v) (fun v => v) afSense [[[2]]] 1 none none false
        false false :=
  (C7_fix_parameters_never_forwarded).1 (fun v => v) (fun v => v) afSense
    [[[2]]] 1 none none false false
